import Mathlib

set_option linter.unusedVariables false

/-!
Verification development for the clingexplaid library (potassco/clingo-explaid).

The development shallowly embeds the core components of the library:

* the MUS engine (`src/clingexplaid/mus/core_computer.py`): iterative-deletion
  computation of a single minimal unsatisfiable subset (MUS) and enumeration of
  multiple MUSes over the powerset of the assumption set;
* the powerset explorer (`src/clingexplaid/mus/explorers/powerset.py`);
* the symbol pattern matcher (`src/clingexplaid/utils/match.py`);
* the assumption preprocessor (`src/clingexplaid/preprocessors/preprocessor_assumption.py`);
* the unsat-constraint computer (`src/clingexplaid/unsat_constraints/unsat_constraint_computer.py`);
* the assumption transformer (`src/clingexplaid/transformers/transformer_assumption.py`).

The external clingo solver is abstracted: solving under an assumption set is a
boolean function `sat : Finset Int → Bool` on sets of signed integer literals,
and wall-clock time (`time.perf_counter()`) is a monotone sequence of readings
`clock : Nat → Int` consumed one index per call.
-/

namespace Clingexplaid

/-! ## Ground symbols (clingo.Symbol) -/

/-- Ground clingo symbols: numbers, strings, functions (constants and tuples
are functions with empty argument lists or empty names), `#inf` and `#sup`. -/
inductive Symb where
  | num (n : ℤ)
  | str (s : String)
  | func (name : String) (args : List Symb) (positive : Bool)
  | inf
  | sup

mutual

/-- Boolean equality on symbols. -/
def Symb.beq : Symb → Symb → Bool
  | .num a, .num b => a == b
  | .str a, .str b => a == b
  | .func n1 a1 p1, .func n2 a2 p2 => n1 == n2 && p1 == p2 && Symb.beqList a1 a2
  | .inf, .inf => true
  | .sup, .sup => true
  | _, _ => false

/-- Boolean equality on lists of symbols. -/
def Symb.beqList : List Symb → List Symb → Bool
  | [], [] => true
  | a :: as, b :: bs => Symb.beq a b && Symb.beqList as bs
  | _, _ => false

end

mutual

theorem Symb.beq_iff : ∀ a b : Symb, Symb.beq a b = true ↔ a = b
  | .num a, .num b => by simp [Symb.beq]
  | .str a, .str b => by simp [Symb.beq]
  | .func n1 a1 p1, .func n2 a2 p2 => by
    simp only [Symb.beq, Bool.and_eq_true, beq_iff_eq, Symb.beqList_iff a1 a2, Symb.func.injEq]
    tauto
  | .inf, .inf => by simp [Symb.beq]
  | .sup, .sup => by simp [Symb.beq]
  | .num _, .str _ | .num _, .func _ _ _ | .num _, .inf | .num _, .sup
  | .str _, .num _ | .str _, .func _ _ _ | .str _, .inf | .str _, .sup
  | .func _ _ _, .num _ | .func _ _ _, .str _ | .func _ _ _, .inf | .func _ _ _, .sup
  | .inf, .num _ | .inf, .str _ | .inf, .func _ _ _ | .inf, .sup
  | .sup, .num _ | .sup, .str _ | .sup, .func _ _ _ | .sup, .inf => by
    simp [Symb.beq]

theorem Symb.beqList_iff : ∀ as bs : List Symb, Symb.beqList as bs = true ↔ as = bs
  | [], [] => by simp [Symb.beqList]
  | a :: as, b :: bs => by
    simp only [Symb.beqList, Bool.and_eq_true, Symb.beq_iff a b, Symb.beqList_iff as bs,
      List.cons.injEq]
  | [], _ :: _ => by simp [Symb.beqList]
  | _ :: _, [] => by simp [Symb.beqList]

end

instance : DecidableEq Symb := fun a b => decidable_of_iff _ (Symb.beq_iff a b)

/-! ## MUS engine: core_computer.py

Assumptions are signed integer literals (`CoreComputer._convert_assumptions`
normalises `(Symbol, bool)` pairs to signed literals, positive sign encoded as
a positive integer).  A grounded solver handle is abstracted as a function
`sat : Finset ℤ → Bool` giving the verdict of `CoreComputer._is_satisfiable`
on each assumption set; the verdict of the external solver depends only on
the set of assumptions passed.  `time.perf_counter()` is modelled by a
sequence `clock : ℕ → ℤ` of readings, consumed one index per call. -/

/-- Container class for unsatisfiable subsets (core_computer.py lines 29-34).
An `AssumptionWrapper` is determined by its signed literal once the grounded
control is fixed (the symbol is `literal_lookup[abs l]` and the sign is
`l >= 0`), so the assumption set is modelled as a set of signed literals.
The dataclass equality compares the assumption set and the `minimal` flag,
whose dataclass default is `false`. -/
structure UnsatisfiableSubset where
  assumptions : Finset ℤ
  minimal : Bool
deriving DecidableEq

/-- The iterative-deletion loop of `CoreComputer._compute_single_minimal`
(core_computer.py lines 164-183).  Arguments: the remaining iteration order
over the assumption literals, the working set `W`, the set `M` of discovered
MUS members (`self._assumptions_minimal`), and the index of the next clock
reading.  Returns the final `M`, the `timeout_reached` flag and the next
clock index.  The timeout check (line 181) reads the clock only when a
timeout is configured; the `break` on line 175 happens before that check. -/
def computeMinimalLoop (sat : Finset ℤ → Bool) (clock : ℕ → ℤ) (timeStart : ℤ)
    (timeout : Option ℤ) : List ℤ → Finset ℤ → Finset ℤ → ℕ → Finset ℤ × Bool × ℕ
  | [], _W, M, k => (M, false, k)
  | a :: rest, W, M, k =>
    let W' := W.erase a
    if sat (W' ∪ M) then
      let M' := insert a M
      if sat M' = false then
        (M', false, k)
      else
        match timeout with
        | none => computeMinimalLoop sat clock timeStart timeout rest W' M' k
        | some t =>
          if timeStart + t < clock k then (M', true, k + 1)
          else computeMinimalLoop sat clock timeStart timeout rest W' M' (k + 1)
    else
      match timeout with
      | none => computeMinimalLoop sat clock timeStart timeout rest W' M k
      | some t =>
        if timeStart + t < clock k then (M, true, k + 1)
        else computeMinimalLoop sat clock timeStart timeout rest W' M (k + 1)

/-- `CoreComputer._compute_single_minimal` (core_computer.py lines 132-185).
`order` is the (deterministic but unspecified) iteration order of the Python
set `a_literals`; its `toFinset` is the assumption set.  The function returns
the `UnsatisfiableSubset` built on line 159 or line 185, the value of the
`timeout_reached` flag (false on the satisfiable short circuit, where it was
never set), and the next clock index.  The accumulator
`self._assumptions_removed` and the warning on an empty assumption set do not
influence the result and are not modelled. -/
def computeSingleMinimal (sat : Finset ℤ → Bool) (clock : ℕ → ℤ) (order : List ℤ)
    (timeout : Option ℤ) (k : ℕ) : UnsatisfiableSubset × Bool × ℕ :=
  let timeStart := clock k
  let a_literals := order.toFinset
  if sat a_literals then
    ({ assumptions := ∅, minimal := false }, false, k + 1)
  else
    let r := computeMinimalLoop sat clock timeStart timeout order a_literals ∅ (k + 1)
    ({ assumptions := r.1, minimal := !r.2.1 }, r.2.1, r.2.2)

/-- `CoreComputer.shrink` (core_computer.py lines 187-197): applies
`_compute_single_minimal` and stores the result in `self.minimal`.  The
stored state does not influence the returned subset. -/
def shrink (sat : Finset ℤ → Bool) (clock : ℕ → ℤ) (order : List ℤ)
    (timeout : Option ℤ) (k : ℕ) : UnsatisfiableSubset × Bool × ℕ :=
  computeSingleMinimal sat clock order timeout k

/-- The candidate enumeration of `CoreComputer.get_multiple_minimal`
(core_computer.py lines 211-213): all subsets of the assumption set in
descending cardinality order (`combinations(assumptions, r)` for `r` from
`len(assumptions)` down to `0`), where `order` is the iteration order of the
assumption set. -/
def powersetDesc (order : List ℤ) : List (Finset ℤ) :=
  ((List.range (order.length + 1)).reverse).flatMap
    (fun r => (List.sublistsLen r order).map List.toFinset)

/-- The candidate loop of `CoreComputer.get_multiple_minimal`
(core_computer.py lines 218-247), returning the list of yielded subsets.
State: remaining candidates, `found_sat`, `found_mus` and the next clock
index.  `orders c` is the iteration order used by the inner
`_compute_single_minimal` call on candidate `c`.  Note on line 231 of the
source: the skip check `set(mus).issubset(current_subset)` compares the
`(Symbol, bool)` pairs iterated from an `UnsatisfiableSubset` with the
integer literals of the candidate; no pair equals an integer, so the check
only fires when a recorded mus is empty. -/
def getMultipleMinimalLoop (sat : Finset ℤ → Bool) (clock : ℕ → ℤ)
    (orders : Finset ℤ → List ℤ) (maxMus : Option ℕ) (deadline : Option ℤ) :
    List (Finset ℤ) → List (Finset ℤ) → List UnsatisfiableSubset → ℕ →
    List UnsatisfiableSubset
  | [], _foundSat, _foundMus, _k => []
  | c :: cs, foundSat, foundMus, k =>
    -- time_remaining = deadline - time.perf_counter(); stop if it is <= 0
    let gate : Option (Option ℤ × ℕ) :=
      match deadline with
      | some d => if d - clock k ≤ 0 then none else some (some (d - clock k), k + 1)
      | none => some (none, k)
    match gate with
    | none => []
    | some (timeRemaining, k1) =>
      -- skip if empty subset
      if c = ∅ then
        getMultipleMinimalLoop sat clock orders maxMus deadline cs foundSat foundMus k1
      -- skip if an already found satisfiable subset is a superset
      else if foundSat.any (fun s => c ⊆ s) then
        getMultipleMinimalLoop sat clock orders maxMus deadline cs foundSat foundMus k1
      -- skip if an already found mus is a subset (see the note above: the
      -- source compares symbol pairs with integer literals, so this only
      -- fires on an empty recorded mus)
      else if foundMus.any (fun m => m.assumptions = ∅) then
        getMultipleMinimalLoop sat clock orders maxMus deadline cs foundSat foundMus k1
      else
        let r := computeSingleMinimal sat clock (orders c) timeRemaining k1
        let mus := r.1
        let k2 := r.2.2
        -- if the current subset was not unsatisfiable store this info and continue
        if mus.assumptions = ∅ then
          getMultipleMinimalLoop sat clock orders maxMus deadline cs (foundSat ++ [c])
            foundMus k2
        -- if iterative deletion finds a mus that was not discovered before, yield
        else if mus ∈ foundMus then
          getMultipleMinimalLoop sat clock orders maxMus deadline cs foundSat foundMus k2
        else
          mus ::
            (if maxMus = some (foundMus.length + 1) then []
             else getMultipleMinimalLoop sat clock orders maxMus deadline cs foundSat
               (foundMus ++ [mus]) k2)

/-- `CoreComputer.get_multiple_minimal` (core_computer.py lines 199-247):
sets the deadline (one clock reading when a timeout is given) and runs the
candidate loop over the descending-cardinality powerset of the assumption
set, starting with empty `found_sat` and `found_mus`. -/
def getMultipleMinimal (sat : Finset ℤ → Bool) (clock : ℕ → ℤ) (order : List ℤ)
    (orders : Finset ℤ → List ℤ) (maxMus : Option ℕ) (timeout : Option ℤ) (k : ℕ) :
    List UnsatisfiableSubset :=
  match timeout with
  | some t =>
    getMultipleMinimalLoop sat clock orders maxMus (some (clock k + t))
      (powersetDesc order) [] [] (k + 1)
  | none =>
    getMultipleMinimalLoop sat clock orders maxMus none (powersetDesc order) [] [] k

/-! ## Explorers: mus/explorers/base.py and mus/explorers/powerset.py

The `Explorer` base class keeps two lists, `_found_sat` (recorded satisfiable
assumption sets, appended by `add_sat`) and `_found_mus` (recorded MUSes,
appended by `add_mus`).  `AssumptionWrapper` sets are modelled as sets of
signed literals, as above. -/

/-- `ExplorationStatus` (base.py lines 10-15). -/
inductive ExplorationStatus where
  | satisfiable
  | unsatisfiable
  | unknown
deriving DecidableEq

/-- `Explorer.add_sat` (base.py lines 36-38): appends the set to `_found_sat`. -/
def explorerAddSat (foundSat : List (Finset ℤ)) (assumptions : Finset ℤ) :
    List (Finset ℤ) :=
  foundSat ++ [assumptions]

/-- `Explorer.add_mus` (base.py lines 40-42): appends the set to `_found_mus`. -/
def explorerAddMus (foundMus : List (Finset ℤ)) (assumptions : Finset ℤ) :
    List (Finset ℤ) :=
  foundMus ++ [assumptions]

/-- `ExplorerPowerset.explored` (powerset.py lines 30-35), translated exactly
as written: it returns `SATISFIABLE` when some recorded satisfiable set is a
superset of the queried set, returns `SATISFIABLE` (sic, source line 34) when
the queried set is a superset of some recorded mus, and `UNKNOWN` otherwise. -/
def explorerPowersetExplored (foundSat foundMus : List (Finset ℤ))
    (assumptionSet : Finset ℤ) : ExplorationStatus :=
  if foundSat.any (fun s => assumptionSet ⊆ s) then .satisfiable
  else if foundMus.any (fun s => s ⊆ assumptionSet) then .satisfiable
  else .unknown

/-! ## Symbol pattern matching: utils/match.py

The matcher expression language is tokenized by a prioritised regular
expression (`_Parser.TOKEN_PATTERNS`) and parsed by recursive descent
(`_Parser`).  Matching a compiled matcher against a ground symbol follows
`FunctionMatcher.match`, `ValueMatcher.match` and `VariableMatcher.match`.
The clingo accessors `Symbol.number` and `Symbol.string` raise a
`RuntimeError` when the symbol is not of the corresponding type; exceptions
are modelled with `Except String`. -/

/-- The apostrophe character, part of the identifier and variable character
classes of the token patterns. -/
def aposChar : Char := Char.ofNat 39

/-- The double-quote character. -/
def quoteChar : Char := Char.ofNat 34

/-- The backslash character. -/
def backslashChar : Char := Char.ofNat 92

/-- `clingo.Symbol.match(name, arity, positive)`: true exactly when the
symbol is a function with the given name, arity and sign; never raises. -/
def Symb.matchSig (s : Symb) (name : String) (arity : ℕ) (positive : Bool) : Bool :=
  match s with
  | .func n args pos => n == name && args.length == arity && pos == positive
  | _ => false

/-- `clingo.Symbol.number`: the value of a Number symbol; raises a
`RuntimeError` on any other symbol type. -/
def Symb.numberE : Symb → Except String ℤ
  | .num n => .ok n
  | _ => .error "RuntimeError: symbol is not a number"

/-- `clingo.Symbol.string`: the value of a String symbol; raises a
`RuntimeError` on any other symbol type. -/
def Symb.stringE : Symb → Except String String
  | .str s => .ok s
  | _ => .error "RuntimeError: symbol is not a string"

/-- `clingo.Symbol.arguments` of a function symbol; the matcher only reads
arguments after `Symbol.match` confirmed a function of the right arity, so
the non-function default is never reached there. -/
def Symb.argsD : Symb → List Symb
  | .func _ args _ => args
  | _ => []

/-- `clingo.Symbol.name` of a function symbol; used by the preprocessor
signature filter on ground fact atoms, which are function symbols. -/
def Symb.nameD : Symb → String
  | .func n _ _ => n
  | _ => ""

/-- The value stored by a `ValueMatcher` (match.py lines 117-126): an
integer, an unquoted string, or a symbol (`#sup` / `#inf`). -/
inductive MatchValue where
  | int (n : ℤ)
  | str (s : String)
  | symb (s : Symb)
deriving DecidableEq

/-- Compiled matchers (match.py): `ValueMatcher`, `VariableMatcher` and
`FunctionMatcher` (the latter also covers tuples, with empty name). -/
inductive Matcher where
  | value (v : MatchValue)
  | var (name : String)
  | func (name : String) (args : List Matcher) (positive : Bool)

/-- The variable assignment built during matching: the Python `dict` from
variable names to symbols, as an association list. -/
def Assignment := List (String × Symb)

/-- Dictionary lookup in an assignment. -/
def assignmentFind (asg : Assignment) (n : String) : Option Symb :=
  (List.find? (fun p => p.1 == n) asg).map (fun p => p.2)

mutual

/-- `Matcher.match` (match.py): returns whether the symbol matches and the
(possibly extended) assignment, or the propagated `RuntimeError` of a symbol
accessor.
* `FunctionMatcher.match` (lines 94-114): for an empty name the symbol must
  match the empty function name with the right arity positively; otherwise
  name, arity and sign must match; then the argument matchers are run left
  to right, stopping at the first failure (Python `all` over a generator),
  keeping assignment entries made before the failure.
* `ValueMatcher.match` (lines 128-145): symbol values compare with symbol
  equality; string and integer values read `Symbol.string` / `Symbol.number`,
  which raise on a symbol of a different type.
* `VariableMatcher.match` (lines 158-177): `_` always matches; a named
  variable must equal its binding if bound, and is bound otherwise. -/
def matcherMatch : Matcher → Symb → Assignment → Except String (Bool × Assignment)
  | .value v, s, asg =>
    match v with
    | .symb v0 => .ok (s == v0, asg)
    | .str v0 => do
      let sv ← s.stringE
      .ok (sv == v0, asg)
    | .int v0 => do
      let n ← s.numberE
      .ok (n == v0, asg)
  | .var name, s, asg =>
    if name ≠ "_" then
      match assignmentFind asg name with
      | some bound => .ok (bound == s, asg)
      | none => .ok (true, (name, s) :: asg)
    else .ok (true, asg)
  | .func name args positive, s, asg =>
    if name = "" then
      if s.matchSig "" args.length true then matchArgs args s.argsD asg
      else .ok (false, asg)
    else
      if s.matchSig name args.length positive then matchArgs args s.argsD asg
      else .ok (false, asg)

/-- `all(m.match(arg, assignment) for m, arg in zip(...))`: sequential,
short-circuiting on the first failed argument. -/
def matchArgs : List Matcher → List Symb → Assignment → Except String (Bool × Assignment)
  | [], _, asg => .ok (true, asg)
  | _ :: _, [], asg => .ok (true, asg)
  | m :: ms, s :: ss, asg => do
    let r ← matcherMatch m s asg
    if r.1 then matchArgs ms ss r.2 else .ok (false, r.2)

end

/-- `Matcher.__call__` (match.py lines 55-71): match with a fresh assignment
and return the assignment on success, `none` on failure. -/
def matcherCall (m : Matcher) (s : Symb) : Except String (Option Assignment) := do
  let r ← matcherMatch m s []
  if r.1 then .ok (some r.2) else .ok none

/-- Token types of `_Parser.TOKEN_PATTERNS` (match.py lines 318-327) plus the
`EOF` sentinel yielded by `_Tokenizer._tokenize`. -/
inductive TokType where
  | NEG
  | SUP
  | INF
  | STR
  | NUM
  | VAR
  | IDF
  | PUN
  | EOF
deriving DecidableEq

/-- A token: type and matched text (`_Token`, match.py lines 180-187). -/
structure Tok where
  ttype : TokType
  value : String
deriving DecidableEq

/-- `[a-zA-Z_']`, the tail character class of the `VAR` pattern. -/
def isVarTailChar (c : Char) : Bool :=
  c.isAlpha || c == '_' || c == aposChar

/-- `['A-Za-z0-9_]`, the tail character class of the `IDF` pattern. -/
def isIdfTailChar (c : Char) : Bool :=
  c.isAlphanum || c == '_' || c == aposChar

/-- `[_']`, the leading character class of the `IDF` pattern. -/
def isIdfLeadChar (c : Char) : Bool :=
  c == '_' || c == aposChar

/-- Greedy scan of a character class. -/
def scanWhile (p : Char → Bool) : List Char → List Char × List Char
  | [] => ([], [])
  | c :: rest =>
    if p c then
      let r := scanWhile p rest
      (c :: r.1, r.2)
    else ([], c :: rest)

/-- Scan the `NEG` pattern `-`. -/
def scanNEG : List Char → Option (List Char × List Char)
  | c :: rest => if c == '-' then some ([c], rest) else none
  | [] => none

/-- Scan a literal keyword (`#sup` / `#inf`). -/
def scanLit (lit : List Char) (cs : List Char) : Option (List Char × List Char) :=
  if lit.isPrefixOf cs then some (lit, cs.drop lit.length) else none

/-- Scan the string-content part of the `STR` pattern
`"([^\\"\n\000]|\\"|\\\\|\\n)*"` after the opening quote: content characters
are any character other than backslash, quote, newline and NUL, or a
backslash followed by a quote, a backslash or the letter n; the scan ends at
the closing quote and fails on a bad escape, a newline, a NUL or the end of
the input. -/
def scanStrContent : List Char → Option (List Char × List Char)
  | [] => none
  | c :: rest =>
    if c == quoteChar then some ([c], rest)
    else if c == backslashChar then
      match rest with
      | d :: rest2 =>
        if d == quoteChar || d == backslashChar || d == 'n' then
          (scanStrContent rest2).map (fun r => (c :: d :: r.1, r.2))
        else none
      | [] => none
    else if c == '\n' || c.toNat == 0 then none
    else (scanStrContent rest).map (fun r => (c :: r.1, r.2))

/-- Scan the `STR` pattern. -/
def scanSTR : List Char → Option (List Char × List Char)
  | c :: rest =>
    if c == quoteChar then (scanStrContent rest).map (fun r => (c :: r.1, r.2))
    else none
  | [] => none

/-- Scan the `NUM` pattern `\d+` (digits, greedy). -/
def scanNUM (cs : List Char) : Option (List Char × List Char) :=
  let r := scanWhile Char.isDigit cs
  if r.1.isEmpty then none else some r

/-- Scan the `VAR` pattern `_|[A-Z][a-zA-Z_']*`: the single underscore
alternative is tried first, as in the regular expression. -/
def scanVAR : List Char → Option (List Char × List Char)
  | c :: rest =>
    if c == '_' then some ([c], rest)
    else if c.isUpper then
      let r := scanWhile isVarTailChar rest
      some (c :: r.1, r.2)
    else none
  | [] => none

/-- Scan the `IDF` pattern `[_']*[a-z]['A-Za-z0-9_]*`: a greedy run of
leading underscores and apostrophes must be followed by a lowercase letter
(shorter runs still end on a lead character, so no backtracking succeeds
otherwise), then a greedy identifier tail. -/
def scanIDF (cs : List Char) : Option (List Char × List Char) :=
  let lead := scanWhile isIdfLeadChar cs
  match lead.2 with
  | c :: rest =>
    if c.isLower then
      let tail := scanWhile isIdfTailChar rest
      some (lead.1 ++ c :: tail.1, tail.2)
    else none
  | [] => none

/-- Scan the `PUN` pattern `[(),]`. -/
def scanPUN : List Char → Option (List Char × List Char)
  | c :: rest =>
    if c == '(' || c == ')' || c == ',' then some ([c], rest) else none
  | [] => none

/-- Try the token patterns in the priority order of `TOKEN_PATTERNS`
(match.py lines 318-327): the combined regular expression tries the named
alternatives left to right at each position. -/
def nextToken (cs : List Char) : Option (Tok × List Char) :=
  match scanNEG cs with
  | some r => some (⟨.NEG, String.mk r.1⟩, r.2)
  | none =>
  match scanLit "#sup".toList cs with
  | some r => some (⟨.SUP, String.mk r.1⟩, r.2)
  | none =>
  match scanLit "#inf".toList cs with
  | some r => some (⟨.INF, String.mk r.1⟩, r.2)
  | none =>
  match scanSTR cs with
  | some r => some (⟨.STR, String.mk r.1⟩, r.2)
  | none =>
  match scanNUM cs with
  | some r => some (⟨.NUM, String.mk r.1⟩, r.2)
  | none =>
  match scanVAR cs with
  | some r => some (⟨.VAR, String.mk r.1⟩, r.2)
  | none =>
  match scanIDF cs with
  | some r => some (⟨.IDF, String.mk r.1⟩, r.2)
  | none =>
  match scanPUN cs with
  | some r => some (⟨.PUN, String.mk r.1⟩, r.2)
  | none => none

/-- `re.finditer` over the combined pattern: emit non-overlapping matches
left to right, skipping characters no pattern matches.  Every successful
token consumes at least one character, so the input length bounds the number
of steps; the fuel argument makes that bound explicit. -/
def tokenizeAux : ℕ → List Char → List Tok
  | 0, _ => []
  | _ + 1, [] => []
  | fuel + 1, c :: rest =>
    match nextToken (c :: rest) with
    | some (tok, rest2) => tok :: tokenizeAux fuel rest2
    | none => tokenizeAux fuel rest

/-- `_Tokenizer._tokenize` (match.py lines 207-223): the token stream of an
expression, terminated by the `EOF` token. -/
def tokenize (expression : String) : List Tok :=
  tokenizeAux expression.length expression.toList ++ [⟨.EOF, ""⟩]

/-- `_Tokenizer.peek` (match.py lines 238-249). -/
def tkPeek (ts : List Tok) (tt : TokType) (v : Option String) : Bool :=
  match ts with
  | t :: _ => t.ttype == tt && (match v with | none => true | some s => t.value == s)
  | [] => false

/-- `_Tokenizer.consume` (match.py lines 225-236): the `EOF` token is never
consumed. -/
def tkConsume (ts : List Tok) : Tok × List Tok :=
  match ts with
  | t :: rest => if t.ttype == .EOF then (t, ts) else (t, rest)
  | [] => (⟨.EOF, ""⟩, [])

/-- `_Tokenizer.match` (match.py lines 265-278). -/
def tkMatchTok (ts : List Tok) (tt : TokType) (v : Option String) :
    Option (Tok × List Tok) :=
  if tkPeek ts tt v then some (tkConsume ts) else none

/-- `_Tokenizer.expect` (match.py lines 251-263): raises a `SyntaxError` when
the current token does not match. -/
def tkExpect (ts : List Tok) (tt : TokType) (v : Option String) :
    Except String (Tok × List Tok) :=
  match tkMatchTok ts tt v with
  | some r => .ok r
  | none => .error "SyntaxError: unexpected token"

/-- `unquote` (match.py lines 281-308), scanning the characters between the
quotes with a backslash flag; an invalid escape raises a `ValueError` (the
`STR` token pattern only admits the three valid escapes, so the error is
unreachable from the tokenizer). -/
def unquoteAux : Bool → List Char → Except String (List Char)
  | false, [] => .ok []
  | true, [] => .ok []
  | true, c :: rest =>
    if c == 'n' then (unquoteAux false rest).map (fun r => '\n' :: r)
    else if c == backslashChar then (unquoteAux false rest).map (fun r => c :: r)
    else if c == quoteChar then (unquoteAux false rest).map (fun r => c :: r)
    else .error "ValueError: invalid escape sequence"
  | false, c :: rest =>
    if c == backslashChar then unquoteAux true rest
    else (unquoteAux false rest).map (fun r => c :: r)

/-- `unquote` on a quoted token text: strip the surrounding quotes and
process escapes. -/
def unquote (quoted : String) : Except String String :=
  (unquoteAux false ((quoted.toList.drop 1).dropLast)).map String.mk

/-- `int(token.value)` on a `NUM` token (a nonempty digit string): the
usual base-10 value of the digits. -/
def numValue (v : String) : ℤ :=
  (v.toList.foldl (fun n c => n * 10 + (c.toNat - 48)) 0 : ℕ)

/-- The three mutually recursive procedures of `_Parser`
(`_parse_matcher`, `_parse_function` and its argument loop) fused into one
function so that the recursion is structural on the explicit fuel (each
recursive call of the source consumes at least one token or descends into a
subterm, so any fuel beyond a small multiple of the token count is
enough).  The constructors of `ParseCall` carry the arguments of the three
procedures. -/
inductive ParseCall where
  | matcher (ts : List Tok)
  | fn (name : String) (positive : Bool) (ts : List Tok)
  | args (acc : List Matcher) (trail : Bool) (ts : List Tok)

/-- Results of the fused parser: `_parse_matcher` and `_parse_function`
return a matcher and the remaining tokens; the argument loop returns the
collected argument matchers, the `trail` flag and the remaining tokens. -/
inductive ParseOut where
  | one (m : Matcher) (ts : List Tok)
  | many (args : List Matcher) (trail : Bool) (ts : List Tok)

/-- The fused recursive parser.
* `.matcher ts` is `_Parser._parse_matcher` (match.py lines 338-365):
  `#sup`, `#inf`, numbers, strings, variables, parenthesised tuples,
  negated functions or numbers, and functions.
* `.fn name positive ts` is `_Parser._parse_function` (lines 367-403): no
  opening parenthesis means a constant; `(,)` is the empty tuple with
  trailing comma; otherwise the argument loop runs, and a single collected
  argument without tuple marker is returned bare.
* `.args acc trail ts` is the `while not match(")")` loop (lines 393-399):
  a closing parenthesis ends the loop; after the first argument a comma is
  expected, and `,)` ends a tuple with a trailing comma; each argument is
  parsed by `_parse_matcher`.
The `.many` results only arise from `.args` calls and the `.one` results
only from the other two, so the mismatched extraction branches below are
unreachable. -/
def parseRun : ℕ → ParseCall → Except String ParseOut
  | 0, _ => .error "SyntaxError: out of fuel"
  | fuel + 1, .matcher ts =>
    match tkMatchTok ts .SUP none with
    | some r => .ok (.one (.value (.symb .sup)) r.2)
    | none =>
    match tkMatchTok ts .INF none with
    | some r => .ok (.one (.value (.symb .inf)) r.2)
    | none =>
    match tkMatchTok ts .NUM none with
    | some r => .ok (.one (.value (.int (numValue r.1.value))) r.2)
    | none =>
    match tkMatchTok ts .STR none with
    | some r =>
      match unquote r.1.value with
      | .ok sv => .ok (.one (.value (.str sv)) r.2)
      | .error e => .error e
    | none =>
    match tkMatchTok ts .VAR none with
    | some r => .ok (.one (.var r.1.value) r.2)
    | none =>
    if tkPeek ts .PUN (some "(") then parseRun fuel (.fn "" true ts)
    else
      match tkMatchTok ts .NEG none with
      | some r =>
        (match tkMatchTok r.2 .IDF none with
        | some r2 => parseRun fuel (.fn r2.1.value false r2.2)
        | none =>
          match tkExpect r.2 .NUM none with
          | .ok r2 => .ok (.one (.value (.int (-(numValue r2.1.value)))) r2.2)
          | .error e => .error e)
      | none =>
        match tkExpect ts .IDF none with
        | .ok r => parseRun fuel (.fn r.1.value true r.2)
        | .error e => .error e
  | fuel + 1, .fn name positive ts =>
    match tkMatchTok ts .PUN (some "(") with
    | none => .ok (.one (.func name [] positive) ts)
    | some r =>
      let trail := name ≠ ""
      match (if ¬trail then tkMatchTok r.2 .PUN (some ",") else none) with
      | some r2 =>
        match tkExpect r2.2 .PUN (some ")") with
        | .ok r3 => .ok (.one (.func name [] positive) r3.2)
        | .error e => .error e
      | none =>
        match parseRun fuel (.args [] trail r.2) with
        | .ok (.many args trail2 ts2) =>
          if ¬trail2 ∧ args.length = 1 then .ok (.one (args.headD (.var "_")) ts2)
          else .ok (.one (.func name args positive) ts2)
        | .ok (.one _ _) => .error "SyntaxError: unreachable parser state"
        | .error e => .error e
  | fuel + 1, .args acc trail ts =>
    match tkMatchTok ts .PUN (some ")") with
    | some r => .ok (.many acc trail r.2)
    | none =>
      if acc.isEmpty then
        match parseRun fuel (.matcher ts) with
        | .ok (.one m ts2) => parseRun fuel (.args (acc ++ [m]) trail ts2)
        | .ok (.many _ _ _) => .error "SyntaxError: unreachable parser state"
        | .error e => .error e
      else
        match tkExpect ts .PUN (some ",") with
        | .ok r =>
          match (if ¬trail then tkMatchTok r.2 .PUN (some ")") else none) with
          | some r2 => .ok (.many acc true r2.2)
          | none =>
            match parseRun fuel (.matcher r.2) with
            | .ok (.one m ts2) => parseRun fuel (.args (acc ++ [m]) trail ts2)
            | .ok (.many _ _ _) => .error "SyntaxError: unreachable parser state"
            | .error e => .error e
        | .error e => .error e
termination_by structural fuel _ => fuel

/-- `_Parser._parse_matcher` as a function of the token stream: run the
fused parser on a `.matcher` call. -/
def parseMatcherF (fuel : ℕ) (ts : List Tok) : Except String (Matcher × List Tok) :=
  match parseRun fuel (.matcher ts) with
  | .ok (.one m ts2) => .ok (m, ts2)
  | .ok (.many _ _ _) => .error "SyntaxError: unreachable parser state"
  | .error e => .error e

/-- `_Parser.parse` (match.py lines 405-416): parse a complete matcher and
require that the whole input was consumed. -/
def parseExpression (ts : List Tok) : Except String Matcher := do
  let r ← parseMatcherF (3 * ts.length + 3) ts
  let _ ← tkExpect r.2 .EOF none
  .ok r.1

/-- `compile_matcher` (match.py lines 419-429): tokenize and parse (the
memoisation cache does not change the result). -/
def compileMatcher (expression : String) : Except String Matcher :=
  parseExpression (tokenize expression)

/-- `match` (match.py lines 432-443): compile the expression and apply the
matcher to the symbol. -/
def matchExpr (expression : String) (s : Symb) : Except String (Option Assignment) := do
  let m ← compileMatcher expression
  matcherCall m s

/-! ## Assumption preprocessor: preprocessors/preprocessor_assumption.py

Programs are modelled at the level the preprocessor works on: a statement is
either a rule with a literal head and an empty body (a fact, carrying the
ground instances its possibly pooled head unpools to), a rule with an
aggregate (choice) head and an empty body, or any other statement, which
`_transform_rule` passes through unchanged.  The textual round trip through
`parse_string` and `str` is the identity on this representation. -/

/-- A preprocessor filter (preprocessor_assumption.py lines 16-34):
`FilterPattern` or `FilterSignature`. -/
inductive PFilter where
  | pattern (p : String)
  | signature (name : String) (arity : ℕ)
deriving DecidableEq

/-- The filter state of an `AssumptionPreprocessor` (lines 52-53): the filter
set and the `_filters_convert_nothing` sentinel. -/
structure APConfig where
  filters : List PFilter
  filtersConvertNothing : Bool
deriving DecidableEq

/-- `AssumptionPreprocessor.__init__` (lines 45-61): records the filters (a
set, modelled by deduplication), sets `_filters_convert_nothing` exactly when
an empty filter iterable was explicitly supplied, and in that case emits a
warning.  Returns the configuration and whether the warning was emitted. -/
def mkAssumptionPreprocessor (filters : Option (List PFilter)) : APConfig × Bool :=
  match filters with
  | none => ({ filters := [], filtersConvertNothing := false }, false)
  | some l => ({ filters := l.dedup, filtersConvertNothing := l.isEmpty }, l.isEmpty)

/-- One filter of the loop body of `_any_filters_apply` (lines 87-92): a
pattern filter calls `match(pattern, symbol)` (whose exceptions propagate), a
signature filter compares arity and name. -/
def filterApplies : PFilter → Symb → Except String Bool
  | .pattern p, s => (matchExpr p s).map Option.isSome
  | .signature name arity, s => .ok (s.argsD.length == arity && s.nameD == name)

/-- `AssumptionPreprocessor._any_filters_apply` (lines 79-93): convert
nothing under the explicit-empty sentinel; convert everything when no
filters are configured; otherwise OR the filters together (each filter is
evaluated, there is no short-circuit). -/
def anyFiltersApply (cfg : APConfig) (s : Symb) : Except String Bool :=
  if cfg.filtersConvertNothing then .ok false
  else if cfg.filters.length = 0 then .ok true
  else
    cfg.filters.foldlM
      (fun applies f => (filterApplies f s).map (fun b => applies || b)) false

mutual

/-- `str` of a ground symbol, used as the sort key `key=str` in
`_transform_rule` (lines 151 and 156-157).  String symbols are rendered with
surrounding quotes (clingo escape sequences are not modelled); one-element
tuples carry the trailing comma. -/
def renderSymb : Symb → String
  | .num n => toString n
  | .str s => String.mk [quoteChar] ++ s ++ String.mk [quoteChar]
  | .inf => "#inf"
  | .sup => "#sup"
  | .func name args positive =>
    (if positive then "" else "-") ++ name ++
      (if args.isEmpty then ""
       else "(" ++ renderArgs args ++ (if name = "" && args.length = 1 then ",)" else ")"))

/-- Comma-joined rendering of function arguments. -/
def renderArgs : List Symb → String
  | [] => ""
  | [a] => renderSymb a
  | a :: b :: rest => renderSymb a ++ "," ++ renderArgs (b :: rest)

end

/-- `sorted(..., key=str)` on a collection of ground atoms. -/
def sortAtoms (atoms : List Symb) : List Symb :=
  List.insertionSort (fun a b => renderSymb a ≤ renderSymb b) atoms

/-- A statement as seen by `_transform_rule` and `_process_ast_list`
(lines 119-157 and 169-181):
* `fact instances` — a rule whose head is a `Literal` and whose body is
  empty; `instances` are the ground instances `_unpool` yields for the head;
* `choiceFact atoms` — a rule with an aggregate (choice) head and empty body,
  whose head AST type is not `Literal`, so `_transform_rule` returns it
  unchanged (line 120-121);
* `other idx` — any other statement (rule with nonempty body, definition,
  and so on), passed through unchanged. -/
inductive PRule where
  | fact (instances : List Symb)
  | choiceFact (atoms : List Symb)
  | other (idx : ℕ)
deriving DecidableEq

/-- The partition of the unpooled head instances of a fact into choice atoms
and retained atoms (the `for atom in atoms_unpooled` loop, lines 128-136):
each instance goes to the choice side exactly when `_any_filters_apply`
holds of it, the filters of each instance are evaluated in iteration order,
and exceptions propagate. -/
def partitionInstances (cfg : APConfig) : List Symb → Except String (List Symb × List Symb)
  | [] => .ok ([], [])
  | atom :: rest =>
    match anyFiltersApply cfg atom with
    | .error e => .error e
    | .ok applies =>
      match partitionInstances cfg rest with
      | .error e => .error e
      | .ok part =>
        if applies then .ok (atom :: part.1, part.2) else .ok (part.1, atom :: part.2)

/-- `AssumptionPreprocessor._transform_rule` (lines 119-157) combined with
the wrapping of retained head atoms back into rules by `_process_ast_list`
(lines 172-177).  Returns the emitted statements and the list of atoms added
to the assumption set (each with positive sign, line 144).  A fact whose
unpooled instances contain at least one filtered atom becomes a choice rule
over the sorted filtered atoms followed by the sorted retained atoms as
facts; otherwise the sorted retained atoms are emitted as facts.  The
unpooled instances form a set, modelled by deduplication. -/
def transformRule (cfg : APConfig) : PRule → Except String (List PRule × List Symb)
  | .choiceFact atoms => .ok ([.choiceFact atoms], [])
  | .other idx => .ok ([.other idx], [])
  | .fact instances =>
    (partitionInstances cfg instances.dedup).map (fun part =>
      let atomsChoice := part.1
      let atomsRetained := part.2
      if atomsChoice.length > 0 then
        (.choiceFact (sortAtoms atomsChoice) ::
          (sortAtoms atomsRetained).map (fun a => .fact [a]),
         atomsChoice)
      else
        ((sortAtoms atomsRetained).map (fun a => .fact [a]), []))

/-- `AssumptionPreprocessor.process` (lines 183-191) at the level of parsed
statements: transform each statement in order and concatenate the emitted
statements (which `process` joins into the returned program text) and the
recorded assumptions. -/
def processRules (cfg : APConfig) : List PRule → Except String (List PRule × List Symb)
  | [] => .ok ([], [])
  | r :: rs =>
    match transformRule cfg r with
    | .error e => .error e
    | .ok head =>
      match processRules cfg rs with
      | .error e => .error e
      | .ok rest => .ok (head.1 ++ rest.1, head.2 ++ rest.2)

/-! ## Unsat-constraint computer: unsat_constraints/unsat_constraint_computer.py

`get_unsat_constraints` adds
`#minimize {1,X : unsat(X)}.` to the tagged program, grounds it, and iterates
the solve handle, keeping the tag atoms of each model until no further model
arrives (lines 106-114): the retained atoms are those of the final model of
the solve, the optimal one.  The external solver is abstracted by the
sequence `modelSeq` of tag projections of the models it yields. -/

/-- The model loop of `get_unsat_constraints` (lines 108-114): starts with an
empty atom list and replaces it by the tag atoms of each model in turn, so it
retains the tag atoms of the last model, or the empty set when the solve
yields no model. -/
def finalModelTags (modelSeq : List (Finset ℕ)) : Finset ℕ :=
  modelSeq.getLastD ∅

/-- The result map of `get_unsat_constraints` (lines 115-121): one entry per
tag atom `unsat(k)` of the final model, mapping the constraint id `k` to
`str(constraint_lookup.get(k))` (which is the string `"None"` when the lookup
has no entry for `k`). -/
def getUnsatConstraints (constraintLookup : ℕ → Option String)
    (modelSeq : List (Finset ℕ)) : Finset (ℕ × String) :=
  (finalModelTags modelSeq).image (fun i => (i, (constraintLookup i).getD "None"))

/-! ## Assumption transformer: transformers/transformer_assumption.py -/

/-- The exceptions raised by `AssumptionTransformer.get_assumption_symbols`
(transformers/exceptions.py): `UntransformedException` and
`NotGroundedException`. -/
inductive TransformerError where
  | untransformed
  | notGrounded
deriving DecidableEq

/-- `AssumptionTransformer.get_assumption_symbols` (transformer_assumption.py
lines 114-142).  `transformed` is the `self.transformed` flag,
`symbolicAtomCount` the size of `control.symbolic_atoms`, and
`factGrounding` abstracts the result of grounding the recorded fact rules in
the auxiliary `fact_control` and collecting its fact symbols (lines
135-142). -/
def getAssumptionSymbols (transformed : Bool) (symbolicAtomCount : ℕ)
    (factGrounding : Finset Symb) : Except TransformerError (Finset Symb) :=
  if transformed = false then .error .untransformed
  else if symbolicAtomCount = 0 then .error .notGrounded
  else .ok factGrounding

/-- `AssumptionTransformer.get_assumption_literals` (transformer_assumption.py
lines 144-151): looks up the assumption symbols and maps each through the
symbol-to-literal table of the grounded control, dropping symbols without an
entry. -/
def getAssumptionLiterals (transformed : Bool) (symbolicAtomCount : ℕ)
    (factGrounding : Finset Symb) (symbolToLiteral : Symb → Option ℤ) :
    Except TransformerError (Finset ℤ) := do
  let syms ← getAssumptionSymbols transformed symbolicAtomCount factGrounding
  .ok ((syms.filter (fun s => (symbolToLiteral s).isSome)).image
    (fun s => (symbolToLiteral s).getD 0))

/-! ## Auxiliary predicates and concrete instances used in the statements -/

/-- The semantic facts that hold of every subset yielded by
`getMultipleMinimal`: it is nonempty; with `minimal = true` it is
unsatisfiable and irreducible; with `minimal = false` (a timeout result) it
is satisfiable. -/
def MusGood (sat : Finset ℤ → Bool) (y : UnsatisfiableSubset) : Prop :=
  y.assumptions ≠ ∅ ∧
  (y.minimal = true →
    sat y.assumptions = false ∧
      ∀ m ∈ y.assumptions, sat (y.assumptions.erase m) = true) ∧
  (y.minimal = false → sat y.assumptions = true)

/-- Boolean form of a successful positive `_any_filters_apply` verdict. -/
def appliesOk (cfg : APConfig) (h : Symb) : Bool :=
  match anyFiltersApply cfg h with
  | .ok true => true
  | _ => false

/-- A concrete solver verdict for witnesses: satisfiable exactly when
literal `1` is not among the assumptions. -/
def satOne (s : Finset ℤ) : Bool := decide (1 ∉ s)

/-- A constant clock for witnesses. -/
def clockZero (_ : ℕ) : ℤ := 0

end Clingexplaid

/-! # Theorems -/

namespace Clingexplaid

/-! ## Lemmas on the iterative-deletion loop -/

/-- Every assumption the loop adds to the discovered set comes from the
remaining iteration order. -/
theorem computeMinimalLoop_subset (sat : Finset ℤ → Bool) (clock : ℕ → ℤ)
    (ts : ℤ) (tout : Option ℤ) :
    ∀ (rest : List ℤ) (W M : Finset ℤ) (k : ℕ),
      (computeMinimalLoop sat clock ts tout rest W M k).1 ⊆ M ∪ rest.toFinset := by
  intro rest
  induction rest with
  | nil =>
    intro W M k
    simp [computeMinimalLoop]
  | cons a rest ih =>
    intro W M k
    simp only [computeMinimalLoop, List.toFinset_cons]
    split_ifs with h1 h2
    · -- found break: result insert a M
      intro x hx
      simp only [Finset.mem_union, Finset.mem_insert] at *
      rcases hx with h | h
      · exact Or.inr (Or.inl h)
      · exact Or.inl h
    · -- added, continue (after possible timeout check)
      have step : ∀ k' : ℕ,
          (computeMinimalLoop sat clock ts tout rest (W.erase a) (insert a M) k').1 ⊆
            M ∪ insert a rest.toFinset := by
        intro k'
        refine (ih (W.erase a) (insert a M) k').trans ?_
        intro x hx
        simp only [Finset.mem_union, Finset.mem_insert] at *
        tauto
      cases tout with
      | none => exact step k
      | some t =>
        dsimp only
        split_ifs with h3
        · intro x hx
          simp only [Finset.mem_union, Finset.mem_insert] at *
          rcases hx with h | h
          · exact Or.inr (Or.inl h)
          · exact Or.inl h
        · exact step (k + 1)
    · -- removed, continue
      have step : ∀ k' : ℕ,
          (computeMinimalLoop sat clock ts tout rest (W.erase a) M k').1 ⊆
            M ∪ insert a rest.toFinset := by
        intro k'
        refine (ih (W.erase a) M k').trans ?_
        intro x hx
        simp only [Finset.mem_union, Finset.mem_insert] at *
        tauto
      cases tout with
      | none => exact step k
      | some t =>
        dsimp only
        split_ifs with h3
        · intro x hx
          simp only [Finset.mem_union]
          exact Or.inl hx
        · exact step (k + 1)

/-- Without a configured timeout the loop never reports a timeout. -/
theorem computeMinimalLoop_none_no_timeout (sat : Finset ℤ → Bool) (clock : ℕ → ℤ)
    (ts : ℤ) :
    ∀ (rest : List ℤ) (W M : Finset ℤ) (k : ℕ),
      (computeMinimalLoop sat clock ts none rest W M k).2.1 = false := by
  intro rest
  induction rest with
  | nil => intro W M k; simp [computeMinimalLoop]
  | cons a rest ih =>
    intro W M k
    simp only [computeMinimalLoop]
    split_ifs with h1 h2
    · rfl
    · exact ih _ _ _
    · exact ih _ _ _

/-- Throughout the loop the discovered set is empty or satisfiable unless the
found-break fired; hence a timeout result is empty or satisfiable. -/
theorem computeMinimalLoop_timeout_sat (sat : Finset ℤ → Bool) (clock : ℕ → ℤ)
    (ts : ℤ) (tout : Option ℤ) :
    ∀ (rest : List ℤ) (W M : Finset ℤ) (k : ℕ),
      (M = ∅ ∨ sat M = true) →
      (computeMinimalLoop sat clock ts tout rest W M k).2.1 = true →
      ((computeMinimalLoop sat clock ts tout rest W M k).1 = ∅ ∨
        sat (computeMinimalLoop sat clock ts tout rest W M k).1 = true) := by
  intro rest
  induction rest with
  | nil =>
    intro W M k hM hto
    simp [computeMinimalLoop] at hto
  | cons a rest ih =>
    intro W M k hM
    simp only [computeMinimalLoop]
    split_ifs with h1 h2
    · intro hto
      simp at hto
    · have hMsat : sat (insert a M) = true := by
        cases h : sat (insert a M) with
        | false => exact absurd h h2
        | true => rfl
      cases tout with
      | none => exact ih _ _ _ (Or.inr hMsat)
      | some t =>
        dsimp only
        split_ifs with h3
        · intro _
          exact Or.inr hMsat
        · exact ih _ _ _ (Or.inr hMsat)
    · cases tout with
      | none => exact ih _ _ _ hM
      | some t =>
        dsimp only
        split_ifs with h3
        · intro _
          exact hM
        · exact ih _ _ _ hM

/-- When the loop reports a timeout, some clock reading before the final
index exceeded `timeStart + timeout`. -/
theorem computeMinimalLoop_timeout_clock (sat : Finset ℤ → Bool) (clock : ℕ → ℤ)
    (ts t : ℤ) :
    ∀ (rest : List ℤ) (W M : Finset ℤ) (k : ℕ),
      (computeMinimalLoop sat clock ts (some t) rest W M k).2.1 = true →
      ∃ j, j < (computeMinimalLoop sat clock ts (some t) rest W M k).2.2 ∧
        ts + t < clock j := by
  intro rest
  induction rest with
  | nil =>
    intro W M k hto
    simp [computeMinimalLoop] at hto
  | cons a rest ih =>
    intro W M k
    simp only [computeMinimalLoop]
    split_ifs with h1 h2 h3 h4
    · intro hto
      simp at hto
    · intro _
      exact ⟨k, Nat.lt_succ_self k, h3⟩
    · exact ih _ _ _
    · intro _
      exact ⟨k, Nat.lt_succ_self k, h4⟩
    · exact ih _ _ _

/-- Main invariant of the iterative-deletion loop: when it terminates
without a timeout, the discovered set is unsatisfiable and removing any of
its members makes it satisfiable.  The invariant carries that the working
set equals the set of unprocessed assumptions, that unprocessed assumptions
are not yet members, that the union of the working set and the members is
unsatisfiable, and that each current member is necessary for that union. -/
theorem computeMinimalLoop_correct (sat : Finset ℤ → Bool) (clock : ℕ → ℤ)
    (ts : ℤ) (tout : Option ℤ)
    (hanti : ∀ S T : Finset ℤ, S ⊆ T → sat T = true → sat S = true) :
    ∀ (rest : List ℤ) (W M : Finset ℤ) (k : ℕ),
      rest.Nodup → W = rest.toFinset → (∀ a ∈ rest, a ∉ M) →
      sat (W ∪ M) = false →
      (∀ m ∈ M, sat ((W ∪ M).erase m) = true) →
      (computeMinimalLoop sat clock ts tout rest W M k).2.1 = false →
      sat (computeMinimalLoop sat clock ts tout rest W M k).1 = false ∧
        ∀ m ∈ (computeMinimalLoop sat clock ts tout rest W M k).1,
          sat (((computeMinimalLoop sat clock ts tout rest W M k).1).erase m) = true := by
  intro rest
  induction rest with
  | nil =>
    intro W M k hnd hW hdisj hsat hmin hto
    subst hW
    simp only [List.toFinset_nil, Finset.empty_union] at hsat hmin
    simpa [computeMinimalLoop] using ⟨hsat, hmin⟩
  | cons a rest ih =>
    intro W M k hnd hW hdisj hsat hmin
    have hnda : a ∉ rest := (List.nodup_cons.mp hnd).1
    have hndr : rest.Nodup := (List.nodup_cons.mp hnd).2
    have haM : a ∉ M := hdisj a (List.mem_cons_self a rest)
    have haW : a ∉ rest.toFinset := by simpa using hnda
    have hWin : W = insert a rest.toFinset := by simpa [List.toFinset_cons] using hW
    have hWe : W.erase a = rest.toFinset := by
      rw [hWin, Finset.erase_insert haW]
    have hkey : W.erase a ∪ insert a M = W ∪ M := by
      rw [hWe, Finset.union_insert, hWin, Finset.insert_union]
    have hWaM : (W ∪ M).erase a = W.erase a ∪ M := by
      have hnotin : a ∉ rest.toFinset ∪ M := by
        simp only [Finset.mem_union]
        exact fun h => h.elim (fun h1 => haW h1) (fun h2 => haM h2)
      rw [hWe, hWin, Finset.insert_union, Finset.erase_insert hnotin]
    simp only [computeMinimalLoop]
    split_ifs with h1 h2
    · -- found break: the members plus `a` are unsatisfiable and irreducible
      intro _
      refine ⟨by simpa using h2, ?_⟩
      intro m hm
      rcases Finset.mem_insert.mp hm with hma | hmM
      · subst hma
        rw [Finset.erase_insert haM]
        exact hanti M (W.erase m ∪ M) Finset.subset_union_right h1
      · have hmA : m ≠ a := fun hc => haM (hc ▸ hmM)
        rw [Finset.erase_insert_of_ne (fun hc => hmA hc.symm)]
        refine hanti _ _ ?_ (hmin m hmM)
        intro x hx
        rcases Finset.mem_insert.mp hx with hxa | hxM
        · subst hxa
          refine Finset.mem_erase.mpr ⟨fun hc => hmA hc.symm, ?_⟩
          exact Finset.mem_union_left M (hWin ▸ Finset.mem_insert_self x rest.toFinset)
        · exact Finset.erase_subset_erase m Finset.subset_union_right hxM
    · -- added and continuing: re-establish the invariant for `insert a M`
      have hdisj2 : ∀ b ∈ rest, b ∉ insert a M := by
        intro b hb
        simp only [Finset.mem_insert]
        exact fun h => h.elim (fun hb1 => hnda (hb1 ▸ hb))
          (fun hb2 => hdisj b (List.mem_cons_of_mem a hb) hb2)
      have hsat2 : sat (W.erase a ∪ insert a M) = false := by rw [hkey]; exact hsat
      have hmin2 : ∀ m ∈ insert a M, sat ((W.erase a ∪ insert a M).erase m) = true := by
        intro m hm
        rw [hkey]
        rcases Finset.mem_insert.mp hm with hma | hmM
        · subst hma
          rw [hWaM]
          exact h1
        · exact hmin m hmM
      cases tout with
      | none => exact ih _ _ _ hndr hWe hdisj2 hsat2 hmin2
      | some t =>
        dsimp only
        split_ifs with h3
        · intro hto
          simp at hto
        · exact ih _ _ _ hndr hWe hdisj2 hsat2 hmin2
    · -- removed and continuing: the invariant transfers to the smaller union
      have hsat2 : sat (W.erase a ∪ M) = false := by simpa using h1
      have hmin2 : ∀ m ∈ M, sat ((W.erase a ∪ M).erase m) = true := by
        intro m hm
        refine hanti _ _ ?_ (hmin m hm)
        exact Finset.erase_subset_erase m
          (Finset.union_subset_union (Finset.erase_subset a W) (le_refl M))
      cases tout with
      | none =>
        exact ih _ _ _ hndr hWe (fun b hb => hdisj b (List.mem_cons_of_mem a hb))
          hsat2 hmin2
      | some t =>
        dsimp only
        split_ifs with h3
        · intro hto
          simp at hto
        · exact ih _ _ _ hndr hWe (fun b hb => hdisj b (List.mem_cons_of_mem a hb))
            hsat2 hmin2

/-! ## Properties of a single `_compute_single_minimal` run -/

/-- The returned subset only contains assumptions from the input set. -/
theorem computeSingleMinimal_subset (sat : Finset ℤ → Bool) (clock : ℕ → ℤ)
    (order : List ℤ) (tout : Option ℤ) (k : ℕ) :
    (computeSingleMinimal sat clock order tout k).1.assumptions ⊆ order.toFinset := by
  simp only [computeSingleMinimal]
  split_ifs with hs
  · intro x hx
    simp at hx
  · have h := computeMinimalLoop_subset sat clock (clock k) tout order order.toFinset ∅ (k + 1)
    simpa using h

/-- A result with `minimal = true` satisfies the MUS property: it is
contained in the assumption set, unsatisfiable, and every proper subset is
satisfiable. -/
theorem computeSingleMinimal_minimal_correct (sat : Finset ℤ → Bool) (clock : ℕ → ℤ)
    (order : List ℤ) (tout : Option ℤ) (k : ℕ)
    (hanti : ∀ S T : Finset ℤ, S ⊆ T → sat T = true → sat S = true)
    (hnd : order.Nodup)
    (hmin : (computeSingleMinimal sat clock order tout k).1.minimal = true) :
    (computeSingleMinimal sat clock order tout k).1.assumptions ⊆ order.toFinset ∧
    sat (computeSingleMinimal sat clock order tout k).1.assumptions = false ∧
    ∀ m ∈ (computeSingleMinimal sat clock order tout k).1.assumptions,
      sat ((computeSingleMinimal sat clock order tout k).1.assumptions.erase m) = true := by
  refine ⟨computeSingleMinimal_subset sat clock order tout k, ?_⟩
  revert hmin
  simp only [computeSingleMinimal]
  split_ifs with hs
  · intro hmin
    simp at hmin
  · intro hmin
    have hto : (computeMinimalLoop sat clock (clock k) tout order order.toFinset ∅
        (k + 1)).2.1 = false := by
      simp only [Bool.not_eq_true'] at hmin
      simpa using hmin
    have hsatWM : sat (order.toFinset ∪ (∅ : Finset ℤ)) = false := by
      simpa using (by simpa using hs : sat order.toFinset = false)
    exact computeMinimalLoop_correct sat clock (clock k) tout hanti order order.toFinset ∅
      (k + 1) hnd rfl (by simp) hsatWM (by simp) hto

/-- The `minimal` flag of the returned subset is true exactly when no
timeout was reached and the full assumption set was unsatisfiable: the
satisfiable short circuit returns the flag as false (its dataclass
default). -/
theorem computeSingleMinimal_minimal_flag (sat : Finset ℤ → Bool) (clock : ℕ → ℤ)
    (order : List ℤ) (tout : Option ℤ) (k : ℕ) :
    (computeSingleMinimal sat clock order tout k).1.minimal = true ↔
      ((computeSingleMinimal sat clock order tout k).2.1 = false ∧
        sat order.toFinset = false) := by
  simp only [computeSingleMinimal]
  split_ifs with hs
  · simp [hs]
  · simp only [Bool.not_eq_true', Bool.not_eq_true]
    constructor
    · intro h
      exact ⟨by simpa using h, by simpa using hs⟩
    · intro h
      simpa using h.1

/-- A nonempty result with `minimal = false` is satisfiable: the flag is
false either on the satisfiable short circuit (empty result) or on a
timeout, and on a timeout the member set was still satisfiable (or empty),
because the found-break would have fired otherwise. -/
theorem computeSingleMinimal_false_sat (sat : Finset ℤ → Bool) (clock : ℕ → ℤ)
    (order : List ℤ) (tout : Option ℤ) (k : ℕ)
    (hflag : (computeSingleMinimal sat clock order tout k).1.minimal = false) :
    (computeSingleMinimal sat clock order tout k).1.assumptions = ∅ ∨
      sat (computeSingleMinimal sat clock order tout k).1.assumptions = true := by
  revert hflag
  simp only [computeSingleMinimal]
  split_ifs with hs
  · intro _
    exact Or.inl rfl
  · intro hflag
    have hto : (computeMinimalLoop sat clock (clock k) tout order order.toFinset ∅
        (k + 1)).2.1 = true := by
      simpa using hflag
    exact computeMinimalLoop_timeout_sat sat clock (clock k) tout order order.toFinset ∅
      (k + 1) (Or.inl rfl) hto

/-- When `_compute_single_minimal` reports a timeout, a timeout was
configured and some clock reading before the final index exceeded the start
reading plus the timeout. -/
theorem computeSingleMinimal_timeout_clock (sat : Finset ℤ → Bool) (clock : ℕ → ℤ)
    (order : List ℤ) (tout : Option ℤ) (k : ℕ)
    (hto : (computeSingleMinimal sat clock order tout k).2.1 = true) :
    ∃ t, tout = some t ∧
      ∃ j, j < (computeSingleMinimal sat clock order tout k).2.2 ∧
        clock k + t < clock j := by
  revert hto
  simp only [computeSingleMinimal]
  split_ifs with hs
  · intro hto
    simp at hto
  · intro hto
    cases tout with
    | none =>
      have := computeMinimalLoop_none_no_timeout sat clock (clock k) order
        order.toFinset ∅ (k + 1)
      rw [this] at hto
      simp at hto
    | some t =>
      refine ⟨t, rfl, ?_⟩
      exact computeMinimalLoop_timeout_clock sat clock (clock k) t order
        order.toFinset ∅ (k + 1) hto

/-! ## Claim C1: the MUS property of `shrink` -/

/-- C1.  For every grounded program and assumption set with
`solve(P, A) = UNSAT`, if `shrink` returns a subset `M` with
`minimal = true`, then `M ⊆ A`, solving under `M` is UNSAT, and solving
under `M` minus any of its members is SAT.  The external solver is any
assumption-antitone verdict `sat`; `order` is the iteration order of the
assumption set, and the claim holds for every timeout and clock. -/
theorem shrink_minimal_is_mus (sat : Finset ℤ → Bool) (clock : ℕ → ℤ)
    (order : List ℤ) (tout : Option ℤ) (k : ℕ)
    (hanti : ∀ S T : Finset ℤ, S ⊆ T → sat T = true → sat S = true)
    (hnd : order.Nodup)
    (hunsat : sat order.toFinset = false)
    (hmin : (shrink sat clock order tout k).1.minimal = true) :
    (shrink sat clock order tout k).1.assumptions ⊆ order.toFinset ∧
    sat (shrink sat clock order tout k).1.assumptions = false ∧
    ∀ m ∈ (shrink sat clock order tout k).1.assumptions,
      sat ((shrink sat clock order tout k).1.assumptions.erase m) = true := by
  exact computeSingleMinimal_minimal_correct sat clock order tout k hanti hnd hmin

/-- The concrete verdict `satOne` is antitone in the assumption set. -/
theorem satOne_antitone : ∀ S T : Finset ℤ, S ⊆ T → satOne T = true → satOne S = true := by
  intro S T hST hT
  simp only [satOne, decide_eq_true_eq] at hT ⊢
  exact fun h1 => hT (hST h1)

/-- Witness for C1: on the assumption set `{1, 2}` with verdict `satOne`
(unsatisfiable exactly when `1` is assumed), `shrink` returns `{1}` with
`minimal = true`, and the MUS property holds of it. -/
theorem shrink_minimal_is_mus_witness :
    (shrink satOne clockZero [1, 2] none 0).1 = ⟨{1}, true⟩ ∧
    ((shrink satOne clockZero [1, 2] none 0).1.assumptions ⊆ ([1, 2] : List ℤ).toFinset ∧
     satOne (shrink satOne clockZero [1, 2] none 0).1.assumptions = false ∧
     ∀ m ∈ (shrink satOne clockZero [1, 2] none 0).1.assumptions,
       satOne ((shrink satOne clockZero [1, 2] none 0).1.assumptions.erase m) = true) :=
  ⟨by decide,
   shrink_minimal_is_mus satOne clockZero [1, 2] none 0 satOne_antitone
     (by decide) (by decide) (by decide)⟩

/-! ## Claim C2: the meaning of the `minimal` flag -/

/-- Counterexample to C2 as stated: with a verdict that is satisfiable on
every assumption set and no timeout configured, `_compute_single_minimal`
returns the empty subset with `minimal = false` even though the engine did
not abort early (the returned `timeout_reached` flag is false), so the
`minimal` flag is not false-iff-aborted-early. -/
theorem computeSingleMinimal_flag_false_without_abort :
    (computeSingleMinimal (fun _ => true) clockZero [1] none 0).1.minimal = false ∧
    (computeSingleMinimal (fun _ => true) clockZero [1] none 0).2.1 = false ∧
    ¬ ((computeSingleMinimal (fun _ => true) clockZero [1] none 0).1.minimal = false ↔
        (computeSingleMinimal (fun _ => true) clockZero [1] none 0).2.1 = true) := by
  refine ⟨by decide, by decide, ?_⟩
  intro h
  have h2 := h.mp (by decide)
  have h3 : (computeSingleMinimal (fun _ => true) clockZero [1] none 0).2.1 = false := by
    decide
  rw [h2] at h3
  exact Bool.noConfusion h3

/-- C2 amended: the `minimal` flag of a subset produced by
`_compute_single_minimal` is true exactly when the engine did not abort
early *and* the solve under the full assumption set was unsatisfiable; in
particular the empty subset returned on the satisfiable short circuit
carries `minimal = false` (the dataclass default), not `minimal = true`. -/
theorem computeSingleMinimal_minimal_flag_iff (sat : Finset ℤ → Bool) (clock : ℕ → ℤ)
    (order : List ℤ) (tout : Option ℤ) (k : ℕ) :
    (computeSingleMinimal sat clock order tout k).1.minimal = true ↔
      ((computeSingleMinimal sat clock order tout k).2.1 = false ∧
        sat order.toFinset = false) :=
  computeSingleMinimal_minimal_flag sat clock order tout k

/-! ## Claim C3: non-redundancy of `get_multiple_minimal` -/

/-- Two `UnsatisfiableSubset` values with equal fields are equal. -/
theorem UnsatisfiableSubset.ext2 (a b : UnsatisfiableSubset)
    (h1 : a.assumptions = b.assumptions) (h2 : a.minimal = b.minimal) : a = b := by
  cases a
  cases b
  simp only at h1 h2
  rw [h1, h2]

/-- A result with nonempty assumptions was built on line 185 of the source,
so its `minimal` flag is the negation of the `timeout_reached` flag. -/
theorem computeSingleMinimal_nonempty_flag (sat : Finset ℤ → Bool) (clock : ℕ → ℤ)
    (order : List ℤ) (tout : Option ℤ) (k : ℕ)
    (hne : (computeSingleMinimal sat clock order tout k).1.assumptions ≠ ∅) :
    (computeSingleMinimal sat clock order tout k).1.minimal =
      !(computeSingleMinimal sat clock order tout k).2.1 := by
  revert hne
  simp only [computeSingleMinimal]
  split_ifs with hs
  · intro hne
    simp at hne
  · intro _
    rfl

/-- A nonempty result of `_compute_single_minimal` satisfies `MusGood`: it
is unsatisfiable and irreducible when its flag is true, and satisfiable when
its flag is false. -/
theorem computeSingleMinimal_good (sat : Finset ℤ → Bool) (clock : ℕ → ℤ)
    (order : List ℤ) (tout : Option ℤ) (k : ℕ)
    (hanti : ∀ S T : Finset ℤ, S ⊆ T → sat T = true → sat S = true)
    (hnd : order.Nodup)
    (hne : (computeSingleMinimal sat clock order tout k).1.assumptions ≠ ∅) :
    MusGood sat (computeSingleMinimal sat clock order tout k).1 := by
  refine ⟨hne, ?_, ?_⟩
  · intro hmin
    exact (computeSingleMinimal_minimal_correct sat clock order tout k hanti hnd hmin).2
  · intro hflag
    exact (computeSingleMinimal_false_sat sat clock order tout k hflag).resolve_left hne

/-- A recorded MUS whose flag is `true` is never contained in a later
`MusGood` subset that is distinct from it as a structure. -/
theorem musGood_not_subset (sat : Finset ℤ → Bool)
    (hanti : ∀ S T : Finset ℤ, S ⊆ T → sat T = true → sat S = true)
    (f y : UnsatisfiableSubset) (hf : MusGood sat f) (hy : MusGood sat y)
    (hftrue : f.minimal = true) (hne : f ≠ y) :
    ¬ f.assumptions ⊆ y.assumptions := by
  intro hsub
  have hfunsat : sat f.assumptions = false := (hf.2.1 hftrue).1
  cases hyflag : y.minimal with
  | true =>
    by_cases heq : f.assumptions = y.assumptions
    · exact hne (UnsatisfiableSubset.ext2 f y heq (by rw [hftrue, hyflag]))
    · have hss : f.assumptions ⊂ y.assumptions := lt_of_le_of_ne hsub heq
      obtain ⟨m, hmy, hmf⟩ := Finset.exists_of_ssubset hss
      have hYmin : sat (y.assumptions.erase m) = true := (hy.2.1 hyflag).2 m hmy
      have hsub2 : f.assumptions ⊆ y.assumptions.erase m :=
        Finset.subset_erase.mpr ⟨hsub, hmf⟩
      have := hanti f.assumptions (y.assumptions.erase m) hsub2 hYmin
      rw [this] at hfunsat
      exact Bool.noConfusion hfunsat
  | false =>
    have hysat : sat y.assumptions = true := hy.2.2 hyflag
    have := hanti f.assumptions y.assumptions hsub hysat
    rw [this] at hfunsat
    exact Bool.noConfusion hfunsat

/-- Invariant proof of the candidate loop: provided that every recorded MUS
satisfies `MusGood` and that a recorded MUS with flag `false` implies that
the deadline has already passed, every yielded subset satisfies `MusGood`,
no recorded MUS is contained in a yielded subset, and no yielded subset
contains a previously yielded one (in particular no two are equal as
sets). -/
theorem getMultipleMinimalLoop_pairwise (sat : Finset ℤ → Bool) (clock : ℕ → ℤ)
    (orders : Finset ℤ → List ℤ) (maxMus : Option ℕ) (deadline : Option ℤ)
    (hanti : ∀ S T : Finset ℤ, S ⊆ T → sat T = true → sat S = true)
    (hmono : Monotone clock)
    (hordnd : ∀ c : Finset ℤ, (orders c).Nodup) :
    ∀ (cs foundSat : List (Finset ℤ)) (foundMus : List UnsatisfiableSubset) (k : ℕ),
      (∀ m ∈ foundMus, MusGood sat m) →
      ((∃ m ∈ foundMus, m.minimal = false) → ∃ d, deadline = some d ∧ d ≤ clock k) →
      (∀ y ∈ getMultipleMinimalLoop sat clock orders maxMus deadline cs foundSat foundMus k,
          MusGood sat y) ∧
      (∀ f ∈ foundMus,
        ∀ y ∈ getMultipleMinimalLoop sat clock orders maxMus deadline cs foundSat foundMus k,
          ¬ f.assumptions ⊆ y.assumptions) ∧
      List.Pairwise (fun x y => ¬ x.assumptions ⊆ y.assumptions)
        (getMultipleMinimalLoop sat clock orders maxMus deadline cs foundSat foundMus k) := by
  intro cs
  induction cs with
  | nil =>
    intro foundSat foundMus k hgood hpassed
    refine ⟨?_, ?_, ?_⟩ <;> simp [getMultipleMinimalLoop]
  | cons c cs ih =>
    intro foundSat foundMus k hgood hpassed
    simp only [getMultipleMinimalLoop]
    cases deadline with
    | some d =>
      dsimp only
      by_cases hgate : d - clock k ≤ 0
      · rw [if_pos hgate]
        refine ⟨?_, ?_, ?_⟩ <;> simp
      · rw [if_neg hgate]
        dsimp only
        have hnof : ¬ ∃ m ∈ foundMus, m.minimal = false := by
          intro hex
          obtain ⟨d2, hd2, hle⟩ := hpassed hex
          have hdd : d2 = d := by
            injection hd2.symm
          rw [hdd] at hle
          omega
        have hpassed2 : ∀ k2 : ℕ, (∃ m ∈ foundMus, m.minimal = false) →
            ∃ d2, (some d : Option ℤ) = some d2 ∧ d2 ≤ clock k2 :=
          fun k2 hex => absurd hex hnof
        split_ifs with h1 h2 h3 h4 h5 h6
        · exact ih _ _ _ hgood (hpassed2 _)
        · exact ih _ _ _ hgood (hpassed2 _)
        · exact ih _ _ _ hgood (hpassed2 _)
        · exact ih _ _ _ hgood (hpassed2 _)
        · exact ih _ _ _ hgood (hpassed2 _)
        · -- max_mus reached after this yield: the result is the singleton
          set mus := (computeSingleMinimal sat clock (orders c)
            (some (d - clock k)) (k + 1)).1 with hmusdef
          have hmusgood : MusGood sat mus :=
            computeSingleMinimal_good sat clock (orders c) (some (d - clock k)) (k + 1)
              hanti (hordnd c) h4
          refine ⟨?_, ?_, ?_⟩
          · intro y hy
            rcases List.mem_singleton.mp hy with rfl
            exact hmusgood
          · intro f hf y hy
            rcases List.mem_singleton.mp hy with rfl
            have hftrue : f.minimal = true := by
              cases hfl : f.minimal with
              | false => exact absurd ⟨f, hf, hfl⟩ hnof
              | true => rfl
            exact musGood_not_subset sat hanti f mus (hgood f hf) hmusgood hftrue
              (fun hc => h5 (hc ▸ hf))
          · simp
        · -- yield and continue
          set mus := (computeSingleMinimal sat clock (orders c)
            (some (d - clock k)) (k + 1)).1 with hmusdef
          set k2 := (computeSingleMinimal sat clock (orders c)
            (some (d - clock k)) (k + 1)).2.2 with hk2def
          have hmusgood : MusGood sat mus :=
            computeSingleMinimal_good sat clock (orders c) (some (d - clock k)) (k + 1)
              hanti (hordnd c) h4
          have hgood2 : ∀ m ∈ foundMus ++ [mus], MusGood sat m := by
            intro m hm
            rcases List.mem_append.mp hm with hm1 | hm2
            · exact hgood m hm1
            · rcases List.mem_singleton.mp hm2 with rfl
              exact hmusgood
          have hpassed3 : (∃ m ∈ foundMus ++ [mus], m.minimal = false) →
              ∃ d2, (some d : Option ℤ) = some d2 ∧ d2 ≤ clock k2 := by
            intro hex
            obtain ⟨m, hm, hflag⟩ := hex
            rcases List.mem_append.mp hm with hm1 | hm2
            · exact absurd ⟨m, hm1, hflag⟩ hnof
            · rcases List.mem_singleton.mp hm2 with rfl
              have hto : (computeSingleMinimal sat clock (orders c)
                  (some (d - clock k)) (k + 1)).2.1 = true := by
                have hfe := computeSingleMinimal_nonempty_flag sat clock (orders c)
                  (some (d - clock k)) (k + 1) h4
                rw [← hmusdef] at hfe
                rw [hflag] at hfe
                cases hv : (computeSingleMinimal sat clock (orders c)
                    (some (d - clock k)) (k + 1)).2.1 with
                | true => rfl
                | false =>
                  rw [hv] at hfe
                  exact Bool.noConfusion hfe
              obtain ⟨t, ht, j, hj, hclk⟩ := computeSingleMinimal_timeout_clock sat clock
                (orders c) (some (d - clock k)) (k + 1) hto
              have htd : t = d - clock k := by
                injection ht.symm
              refine ⟨d, rfl, ?_⟩
              have h1k : clock k ≤ clock (k + 1) := hmono (Nat.le_succ k)
              have hdj : d < clock j := by
                rw [htd] at hclk
                omega
              have hjk2 : clock j ≤ clock k2 := hmono (Nat.le_of_lt hj)
              omega
          obtain ⟨ihA, ihB, ihC⟩ := ih foundSat (foundMus ++ [mus]) k2 hgood2 hpassed3
          have hreln : ∀ f ∈ foundMus, ¬ f.assumptions ⊆ mus.assumptions := by
            intro f hf
            have hftrue : f.minimal = true := by
              cases hfl : f.minimal with
              | false => exact absurd ⟨f, hf, hfl⟩ hnof
              | true => rfl
            exact musGood_not_subset sat hanti f mus (hgood f hf) hmusgood hftrue
              (fun hc => h5 (hc ▸ hf))
          refine ⟨?_, ?_, ?_⟩
          · intro y hy
            rcases List.mem_cons.mp hy with rfl | htail
            · exact hmusgood
            · exact ihA y htail
          · intro f hf y hy
            rcases List.mem_cons.mp hy with rfl | htail
            · exact hreln f hf
            · exact ihB f (List.mem_append_left _ hf) y htail
          · refine List.pairwise_cons.mpr ⟨?_, ihC⟩
            intro y hy
            exact ihB mus (List.mem_append_right _ (List.mem_singleton.mpr rfl)) y hy
    | none =>
      dsimp only
      have hnof : ¬ ∃ m ∈ foundMus, m.minimal = false := by
        intro hex
        obtain ⟨d2, hd2, _⟩ := hpassed hex
        exact Option.noConfusion hd2
      have hpassed2 : ∀ k2 : ℕ, (∃ m ∈ foundMus, m.minimal = false) →
          ∃ d2, (none : Option ℤ) = some d2 ∧ d2 ≤ clock k2 :=
        fun k2 hex => absurd hex hnof
      split_ifs with h1 h2 h3 h4 h5 h6
      · exact ih _ _ _ hgood (hpassed2 _)
      · exact ih _ _ _ hgood (hpassed2 _)
      · exact ih _ _ _ hgood (hpassed2 _)
      · exact ih _ _ _ hgood (hpassed2 _)
      · exact ih _ _ _ hgood (hpassed2 _)
      · set mus := (computeSingleMinimal sat clock (orders c) none k).1 with hmusdef
        have hmusgood : MusGood sat mus :=
          computeSingleMinimal_good sat clock (orders c) none k hanti (hordnd c) h4
        refine ⟨?_, ?_, ?_⟩
        · intro y hy
          rcases List.mem_singleton.mp hy with rfl
          exact hmusgood
        · intro f hf y hy
          rcases List.mem_singleton.mp hy with rfl
          have hftrue : f.minimal = true := by
            cases hfl : f.minimal with
            | false => exact absurd ⟨f, hf, hfl⟩ hnof
            | true => rfl
          exact musGood_not_subset sat hanti f mus (hgood f hf) hmusgood hftrue
            (fun hc => h5 (hc ▸ hf))
        · simp
      · set mus := (computeSingleMinimal sat clock (orders c) none k).1 with hmusdef
        set k2 := (computeSingleMinimal sat clock (orders c) none k).2.2 with hk2def
        have hmusgood : MusGood sat mus :=
          computeSingleMinimal_good sat clock (orders c) none k hanti (hordnd c) h4
        have hgood2 : ∀ m ∈ foundMus ++ [mus], MusGood sat m := by
          intro m hm
          rcases List.mem_append.mp hm with hm1 | hm2
          · exact hgood m hm1
          · rcases List.mem_singleton.mp hm2 with rfl
            exact hmusgood
        have hpassed3 : (∃ m ∈ foundMus ++ [mus], m.minimal = false) →
            ∃ d2, (none : Option ℤ) = some d2 ∧ d2 ≤ clock k2 := by
          intro hex
          obtain ⟨m, hm, hflag⟩ := hex
          rcases List.mem_append.mp hm with hm1 | hm2
          · exact absurd ⟨m, hm1, hflag⟩ hnof
          · rcases List.mem_singleton.mp hm2 with rfl
            have hto : (computeSingleMinimal sat clock (orders c) none k).2.1 = true := by
              have hfe := computeSingleMinimal_nonempty_flag sat clock (orders c) none k h4
              rw [← hmusdef] at hfe
              rw [hflag] at hfe
              cases hv : (computeSingleMinimal sat clock (orders c) none k).2.1 with
              | true => rfl
              | false =>
                rw [hv] at hfe
                exact Bool.noConfusion hfe
            obtain ⟨t, ht, _⟩ := computeSingleMinimal_timeout_clock sat clock
              (orders c) none k hto
            exact Option.noConfusion ht
        obtain ⟨ihA, ihB, ihC⟩ := ih foundSat (foundMus ++ [mus]) k2 hgood2 hpassed3
        have hreln : ∀ f ∈ foundMus, ¬ f.assumptions ⊆ mus.assumptions := by
          intro f hf
          have hftrue : f.minimal = true := by
            cases hfl : f.minimal with
            | false => exact absurd ⟨f, hf, hfl⟩ hnof
            | true => rfl
          exact musGood_not_subset sat hanti f mus (hgood f hf) hmusgood hftrue
            (fun hc => h5 (hc ▸ hf))
        refine ⟨?_, ?_, ?_⟩
        · intro y hy
          rcases List.mem_cons.mp hy with rfl | htail
          · exact hmusgood
          · exact ihA y htail
        · intro f hf y hy
          rcases List.mem_cons.mp hy with rfl | htail
          · exact hreln f hf
          · exact ihB f (List.mem_append_left _ hf) y htail
        · refine List.pairwise_cons.mpr ⟨?_, ihC⟩
          intro y hy
          exact ihB mus (List.mem_append_right _ (List.mem_singleton.mpr rfl)) y hy

/-- C3.  For every run of `get_multiple_minimal` (any solver verdict that is
antitone in the assumption set, monotone clock, assumption set, inner
iteration orders, `max_mus` and timeout), the yielded sequence of MUSes
contains no two elements equal as sets of assumptions, and no yielded MUS is
a superset of an already-yielded one. -/
theorem getMultipleMinimal_non_redundant (sat : Finset ℤ → Bool) (clock : ℕ → ℤ)
    (order : List ℤ) (orders : Finset ℤ → List ℤ) (maxMus : Option ℕ)
    (timeout : Option ℤ) (k : ℕ)
    (hanti : ∀ S T : Finset ℤ, S ⊆ T → sat T = true → sat S = true)
    (hmono : Monotone clock)
    (hordnd : ∀ c : Finset ℤ, (orders c).Nodup) :
    List.Pairwise
      (fun x y => x.assumptions ≠ y.assumptions ∧ ¬ x.assumptions ⊆ y.assumptions)
      (getMultipleMinimal sat clock order orders maxMus timeout k) := by
  have hbase : ∀ (dl : Option ℤ) (k0 : ℕ),
      List.Pairwise (fun x y => ¬ x.assumptions ⊆ y.assumptions)
        (getMultipleMinimalLoop sat clock orders maxMus dl (powersetDesc order) [] [] k0) := by
    intro dl k0
    exact (getMultipleMinimalLoop_pairwise sat clock orders maxMus dl hanti hmono hordnd
      (powersetDesc order) [] [] k0 (by simp) (by simp)).2.2
  have hstrengthen : ∀ l : List UnsatisfiableSubset,
      List.Pairwise (fun x y => ¬ x.assumptions ⊆ y.assumptions) l →
      List.Pairwise
        (fun x y => x.assumptions ≠ y.assumptions ∧ ¬ x.assumptions ⊆ y.assumptions) l := by
    intro l hl
    refine List.Pairwise.imp ?_ hl
    intro x y hxy
    exact ⟨fun hc => hxy (hc ▸ Finset.Subset.refl _), hxy⟩
  cases timeout with
  | some t => exact hstrengthen _ (hbase (some (clock k + t)) (k + 1))
  | none => exact hstrengthen _ (hbase none k)

/-- Witness for C3: a concrete enumeration over the assumption set `{1, 2}`
with the antitone verdict `satOne`, the constant clock and sorted inner
orders; the pairwise non-redundancy holds of its yields. -/
theorem getMultipleMinimal_non_redundant_witness :
    List.Pairwise
      (fun x y => x.assumptions ≠ y.assumptions ∧ ¬ x.assumptions ⊆ y.assumptions)
      (getMultipleMinimal satOne clockZero [1, 2]
        (fun c => Finset.sort (· ≤ ·) c) (some 5) (some 10) 0) :=
  getMultipleMinimal_non_redundant satOne clockZero [1, 2]
    (fun c => Finset.sort (· ≤ ·) c) (some 5) (some 10) 0 satOne_antitone
    (fun _ _ _ => le_refl 0) (fun c => Finset.sort_nodup (· ≤ ·) c)

/-! ## Claim C10: `get_multiple_minimal` never yields an empty subset -/

/-- Every subset the candidate loop yields is nonempty: an empty computed
result is recorded in `found_sat` instead of being yielded. -/
theorem getMultipleMinimalLoop_nonempty (sat : Finset ℤ → Bool) (clock : ℕ → ℤ)
    (orders : Finset ℤ → List ℤ) (maxMus : Option ℕ) (deadline : Option ℤ) :
    ∀ (cs foundSat : List (Finset ℤ)) (foundMus : List UnsatisfiableSubset) (k : ℕ),
      ∀ y ∈ getMultipleMinimalLoop sat clock orders maxMus deadline cs foundSat foundMus k,
        y.assumptions ≠ ∅ := by
  intro cs
  induction cs with
  | nil =>
    intro foundSat foundMus k y hy
    simp [getMultipleMinimalLoop] at hy
  | cons c cs ih =>
    intro foundSat foundMus k y hy
    simp only [getMultipleMinimalLoop] at hy
    cases deadline with
    | some d =>
      dsimp only at hy
      by_cases hgate : d - clock k ≤ 0
      · rw [if_pos hgate] at hy
        simp at hy
      · rw [if_neg hgate] at hy
        dsimp only at hy
        split_ifs at hy with h1 h2 h3 h4 h5 h6
        · exact ih _ _ _ y hy
        · exact ih _ _ _ y hy
        · exact ih _ _ _ y hy
        · exact ih _ _ _ y hy
        · exact ih _ _ _ y hy
        · rcases List.mem_cons.mp hy with hhead | htail
          · subst hhead
            exact h4
          · simp at htail
        · rcases List.mem_cons.mp hy with hhead | htail
          · subst hhead
            exact h4
          · exact ih _ _ _ y htail
    | none =>
      dsimp only at hy
      split_ifs at hy with h1 h2 h3 h4 h5 h6
      · exact ih _ _ _ y hy
      · exact ih _ _ _ y hy
      · exact ih _ _ _ y hy
      · exact ih _ _ _ y hy
      · exact ih _ _ _ y hy
      · rcases List.mem_cons.mp hy with hhead | htail
        · subst hhead
          exact h4
        · simp at htail
      · rcases List.mem_cons.mp hy with hhead | htail
        · subst hhead
          exact h4
        · exact ih _ _ _ y htail

/-- C10.  `get_multiple_minimal` never yields an empty subset: empty
candidate subsets are skipped and a computed result is yielded only when it
is nonempty, for every solver verdict, clock, assumption order, inner
iteration orders, `max_mus` and timeout. -/
theorem getMultipleMinimal_yields_nonempty (sat : Finset ℤ → Bool) (clock : ℕ → ℤ)
    (order : List ℤ) (orders : Finset ℤ → List ℤ) (maxMus : Option ℕ)
    (timeout : Option ℤ) (k : ℕ) :
    ∀ y ∈ getMultipleMinimal sat clock order orders maxMus timeout k,
      y.assumptions ≠ ∅ := by
  intro y hy
  cases timeout with
  | some t =>
    exact getMultipleMinimalLoop_nonempty sat clock orders maxMus (some (clock k + t))
      (powersetDesc order) [] [] (k + 1) y hy
  | none =>
    exact getMultipleMinimalLoop_nonempty sat clock orders maxMus none
      (powersetDesc order) [] [] k y hy

/-- Witness for C10: on the assumption set `{1}` with verdict `satOne`, the
enumeration yields the subset `{1}` (with `minimal = true`), and it is
nonempty. -/
theorem getMultipleMinimal_yields_nonempty_witness :
    (UnsatisfiableSubset.mk {1} true ∈
      getMultipleMinimal satOne clockZero [1] (fun _ => [1]) none none 0) ∧
    (UnsatisfiableSubset.mk {1} true).assumptions ≠ ∅ :=
  ⟨by decide,
   getMultipleMinimal_yields_nonempty satOne clockZero [1] (fun _ => [1]) none none 0
     (UnsatisfiableSubset.mk {1} true) (by decide)⟩

/-! ## Claim C4: `explored` on the explorers -/

/-- C4 fails on the code: after `add_mus({1})` has recorded the MUS `{1}`,
`ExplorerPowerset.explored({1, 2})` evaluates the superset check against the
recorded MUS and returns `SATISFIABLE` (powerset.py line 34), not
`UNSATISFIABLE` as the contract requires for a superset of a recorded
MUS. -/
theorem explorerPowersetExplored_superset_of_mus :
    explorerPowersetExplored [] (explorerAddMus [] {1}) {1, 2} =
      ExplorationStatus.satisfiable ∧
    explorerPowersetExplored [] (explorerAddMus [] {1}) {1, 2} ≠
      ExplorationStatus.unsatisfiable := by
  constructor
  · decide
  · decide

/-! ## Claim C9: querying assumptions before grounding -/

/-- C9.  On a transformed program (`self.transformed = true`), querying
`get_assumption_symbols` (and hence `get_assumption_literals`) with a
control whose symbolic-atom set is empty raises `NotGroundedException`
rather than silently returning an empty set. -/
theorem getAssumptionSymbols_not_grounded (transformed : Bool)
    (symbolicAtomCount : ℕ) (factGrounding : Finset Symb)
    (symbolToLiteral : Symb → Option ℤ)
    (ht : transformed = true) (hg : symbolicAtomCount = 0) :
    getAssumptionSymbols transformed symbolicAtomCount factGrounding =
      .error .notGrounded ∧
    getAssumptionLiterals transformed symbolicAtomCount factGrounding symbolToLiteral =
      .error .notGrounded := by
  subst ht
  subst hg
  constructor
  · rfl
  · rfl

/-- Witness for C9 at a concrete transformed state and ungrounded control. -/
theorem getAssumptionSymbols_not_grounded_witness :
    getAssumptionSymbols true 0 (∅ : Finset Symb) = .error .notGrounded ∧
    getAssumptionLiterals true 0 (∅ : Finset Symb) (fun _ => none) =
      .error .notGrounded :=
  getAssumptionSymbols_not_grounded true 0 ∅ (fun _ => none) rfl rfl

/-! ## Claim C8: match-time behaviour of compiled matchers -/

/-- C8 fails on the code: the pattern `f(5)` compiles without a syntax
error into a function matcher with a numeric value sub-matcher, but applying
the compiled matcher to the ground symbol `f(a)` reads `Symbol.number` on
the non-number argument `a` and raises a `RuntimeError` at match time
(match.py line 145), so matching is not failure-free after a successful
compile. -/
theorem compileMatcher_match_time_runtime_error :
    compileMatcher "f(5)" = .ok (.func "f" [.value (.int 5)] true) ∧
    matchExpr "f(5)" (.func "f" [.func "a" [] true] true) =
      .error "RuntimeError: symbol is not a number" := by
  constructor
  · show parseExpression (tokenize "f(5)") = _
    rfl
  · rfl

/-! ## Claim C6: minimality of the unsat-constraint witness -/

/-- C6.  `get_unsat_constraints` reads the final (optimal) model of the
solve over the tagged program extended with
`#minimize {1,X : unsat(X)}.`: given the solver contract that the final
model is one of the tagged program's models and of minimum tag
cardinality among them, the returned map is empty whenever the input
program is satisfiable (some model fires no tag), and otherwise its key set
is a minimum-cardinality witness among all models. -/
theorem getUnsatConstraints_minimum (constraintLookup : ℕ → Option String)
    (models : Finset (Finset ℕ)) (modelSeq : List (Finset ℕ))
    (hmem : finalModelTags modelSeq ∈ models)
    (hopt : ∀ m ∈ models, (finalModelTags modelSeq).card ≤ m.card) :
    (∅ ∈ models → getUnsatConstraints constraintLookup modelSeq = ∅) ∧
    ((getUnsatConstraints constraintLookup modelSeq).image Prod.fst ∈ models ∧
      ∀ m ∈ models,
        ((getUnsatConstraints constraintLookup modelSeq).image Prod.fst).card ≤
          m.card) := by
  have hkeys : (getUnsatConstraints constraintLookup modelSeq).image Prod.fst =
      finalModelTags modelSeq := by
    rw [getUnsatConstraints, Finset.image_image]
    have : (Prod.fst ∘ fun i => (i, (constraintLookup i).getD "None")) = id := rfl
    rw [this, Finset.image_id]
  refine ⟨?_, ?_, ?_⟩
  · intro h0
    have hle := hopt ∅ h0
    simp only [Finset.card_empty, Nat.le_zero, Finset.card_eq_zero] at hle
    rw [getUnsatConstraints, hle]
    rfl
  · rw [hkeys]
    exact hmem
  · intro m hm
    rw [hkeys]
    exact hopt m hm

/-- Witness for C6: the solve yields the improving models `{1, 2}` then
`{1}`; the final model `{1}` is a member of the model set and of minimum
cardinality, and the returned key set is `{1}`. -/
theorem getUnsatConstraints_minimum_witness :
    ((∅ ∈ ({{1, 2}, {1}} : Finset (Finset ℕ)) →
        getUnsatConstraints (fun _ => none) [{1, 2}, {1}] = ∅) ∧
     ((getUnsatConstraints (fun _ => none) [{1, 2}, {1}]).image Prod.fst ∈
        ({{1, 2}, {1}} : Finset (Finset ℕ)) ∧
      ∀ m ∈ ({{1, 2}, {1}} : Finset (Finset ℕ)),
        ((getUnsatConstraints (fun _ => none) [{1, 2}, {1}]).image Prod.fst).card ≤
          m.card)) :=
  getUnsatConstraints_minimum (fun _ => none) {{1, 2}, {1}} [{1, 2}, {1}]
    (by decide) (by decide)

/-! ## Claims C5 and C7: the assumption preprocessor -/

/-- A successful `_any_filters_apply` verdict determines `appliesOk`. -/
theorem appliesOk_eq (cfg : APConfig) (h : Symb) (b : Bool)
    (hok : anyFiltersApply cfg h = .ok b) : appliesOk cfg h = b := by
  rw [appliesOk, hok]
  cases b <;> rfl

/-- Under the explicit-empty sentinel nothing applies. -/
theorem anyFiltersApply_convert_nothing (cfg : APConfig) (h : Symb)
    (hc : cfg.filtersConvertNothing = true) : anyFiltersApply cfg h = .ok false := by
  rw [anyFiltersApply, if_pos hc]

/-- Without the sentinel and without filters everything applies. -/
theorem anyFiltersApply_no_filters (cfg : APConfig) (h : Symb)
    (hc : cfg.filtersConvertNothing = false) (hf : cfg.filters = []) :
    anyFiltersApply cfg h = .ok true := by
  rw [anyFiltersApply, if_neg (by rw [hc]; exact Bool.false_ne_true), if_pos (by rw [hf]; rfl)]

/-- The accumulator fold of `_any_filters_apply` computes the boolean OR of
the filter verdicts: a successful fold is true exactly when the accumulator
was true or some filter applies. -/
theorem filtersFold_or (h : Symb) :
    ∀ (fs : List PFilter) (acc b : Bool),
      fs.foldlM
        (fun applies f => (filterApplies f h).map (fun b2 => applies || b2)) acc =
        .ok b →
      (b = true ↔ (acc = true ∨ ∃ f ∈ fs, filterApplies f h = .ok true)) := by
  intro fs
  induction fs with
  | nil =>
    intro acc b hfold
    simp only [List.foldlM_nil] at hfold
    have : acc = b := by
      injection hfold
    subst this
    simp
  | cons f fs ih =>
    intro acc b hfold
    simp only [List.foldlM_cons] at hfold
    cases hfa : filterApplies f h with
    | error e =>
      rw [hfa] at hfold
      exact Except.noConfusion hfold
    | ok bf =>
      rw [hfa] at hfold
      have hrec := ih (acc || bf) b hfold
      rw [hrec]
      constructor
      · intro hor
        rcases hor with hab | ⟨f2, hf2, hap2⟩
        · rcases Bool.or_eq_true_iff.mp hab with ha | hb
          · exact Or.inl ha
          · subst hb
            exact Or.inr ⟨f, List.mem_cons_self f fs, hfa⟩
        · exact Or.inr ⟨f2, List.mem_cons_of_mem f hf2, hap2⟩
      · intro hor
        rcases hor with ha | ⟨f2, hf2, hap2⟩
        · exact Or.inl (by rw [ha]; rfl)
        · rcases List.mem_cons.mp hf2 with rfl | htail
          · rw [hfa] at hap2
            have : bf = true := by injection hap2
            subst this
            exact Or.inl (by simp)
          · exact Or.inr ⟨f2, htail, hap2⟩

/-- With a nonempty configured filter list (and no sentinel), a successful
`_any_filters_apply` verdict is true exactly when some filter applies. -/
theorem anyFiltersApply_some_filter (cfg : APConfig) (h : Symb) (b : Bool)
    (hc : cfg.filtersConvertNothing = false) (hne : cfg.filters ≠ [])
    (hok : anyFiltersApply cfg h = .ok b) :
    (b = true ↔ ∃ f ∈ cfg.filters, filterApplies f h = .ok true) := by
  rw [anyFiltersApply, if_neg (by rw [hc]; exact Bool.false_ne_true),
    if_neg (by simpa using hne)] at hok
  rw [filtersFold_or h cfg.filters false b hok]
  simp

/-- A successful partition implies every instance evaluated successfully. -/
theorem partitionInstances_ok_forall (cfg : APConfig) :
    ∀ (insts : List Symb) (part : List Symb × List Symb),
      partitionInstances cfg insts = .ok part →
      ∀ h ∈ insts, ∃ b, anyFiltersApply cfg h = .ok b := by
  intro insts
  induction insts with
  | nil =>
    intro part _ h hh
    simp at hh
  | cons atom rest ih =>
    intro part hpart h hh
    simp only [partitionInstances] at hpart
    cases heval : anyFiltersApply cfg atom with
    | error e =>
      rw [heval] at hpart
      exact Except.noConfusion hpart
    | ok b =>
      rw [heval] at hpart
      cases hrest : partitionInstances cfg rest with
      | error e =>
        rw [hrest] at hpart
        exact Except.noConfusion hpart
      | ok part2 =>
        rcases List.mem_cons.mp hh with rfl | htail
        · exact ⟨b, heval⟩
        · exact ih part2 hrest h htail

/-- When every instance evaluates successfully, the partition splits the
instances by the `_any_filters_apply` verdict, preserving order. -/
theorem partitionInstances_eq (cfg : APConfig) :
    ∀ insts : List Symb,
      (∀ h ∈ insts, ∃ b, anyFiltersApply cfg h = .ok b) →
      partitionInstances cfg insts =
        .ok (insts.filter (appliesOk cfg), insts.filter (fun h => !appliesOk cfg h)) := by
  intro insts
  induction insts with
  | nil =>
    intro _
    rfl
  | cons atom rest ih =>
    intro heval
    obtain ⟨b, hb⟩ := heval atom (List.mem_cons_self atom rest)
    have hrest := ih (fun h hh => heval h (List.mem_cons_of_mem atom hh))
    have hap := appliesOk_eq cfg atom b hb
    simp only [partitionInstances, hb, hrest]
    cases b with
    | true =>
      rw [if_pos rfl]
      rw [List.filter_cons_of_pos (by rw [hap]), List.filter_cons_of_neg (by rw [hap]; exact fun hc => Bool.noConfusion hc)]
    | false =>
      rw [if_neg (by exact fun hc => Bool.noConfusion hc)]
      rw [List.filter_cons_of_neg (by rw [hap]; exact fun hc => Bool.noConfusion hc),
        List.filter_cons_of_pos (by rw [hap]; rfl)]

/-- C5.  Fact conversion in `AssumptionPreprocessor.process`:
(i) if an empty filter list was explicitly supplied, the constructor warns
and `_transform_rule` converts nothing (all unpooled instances are emitted
unchanged, no assumption is added);
(ii) if no filters were supplied at all, every unpooled instance is
converted into the choice rule and added to the assumption set;
(iii) if a nonempty filter list is configured, an unpooled instance is
added to the assumption set (and hence rewritten into the choice) exactly
when some configured filter matches it, and an instance no filter matches
is emitted unchanged as a fact. -/
theorem assumptionPreprocessor_fact_filter_semantics :
    (∀ insts : List Symb,
      (mkAssumptionPreprocessor (some [])).2 = true ∧
      transformRule (mkAssumptionPreprocessor (some [])).1 (.fact insts) =
        .ok ((sortAtoms insts.dedup).map (fun a => PRule.fact [a]), [])) ∧
    (∀ insts : List Symb,
      transformRule (mkAssumptionPreprocessor none).1 (.fact insts) =
        .ok ((if insts.dedup.isEmpty then []
              else [PRule.choiceFact (sortAtoms insts.dedup)]), insts.dedup)) ∧
    (∀ (fs : List PFilter) (insts : List Symb) (outs : List PRule) (asms : List Symb),
      fs ≠ [] →
      transformRule (mkAssumptionPreprocessor (some fs)).1 (.fact insts) =
        .ok (outs, asms) →
      ∀ h ∈ insts,
        (h ∈ asms ↔
          ∃ f ∈ (mkAssumptionPreprocessor (some fs)).1.filters,
            filterApplies f h = .ok true) ∧
        ((¬ ∃ f ∈ (mkAssumptionPreprocessor (some fs)).1.filters,
            filterApplies f h = .ok true) → PRule.fact [h] ∈ outs)) := by
  refine ⟨?_, ?_, ?_⟩
  · -- (i) explicit empty filter list
    intro insts
    refine ⟨rfl, ?_⟩
    have hcfg : (mkAssumptionPreprocessor (some [])).1 =
        { filters := [], filtersConvertNothing := true } := rfl
    rw [hcfg]
    set cfg : APConfig := { filters := [], filtersConvertNothing := true } with hc
    have hall : ∀ h ∈ insts.dedup, anyFiltersApply cfg h = .ok false :=
      fun h _ => anyFiltersApply_convert_nothing cfg h rfl
    have hpart := partitionInstances_eq cfg insts.dedup
      (fun h hh => ⟨false, hall h hh⟩)
    have hfilt1 : insts.dedup.filter (appliesOk cfg) = [] := by
      rw [List.filter_eq_nil_iff]
      intro a ha
      rw [appliesOk_eq cfg a false (hall a ha)]
      exact fun h => Bool.noConfusion h
    have hfilt2 : insts.dedup.filter (fun h => !appliesOk cfg h) = insts.dedup := by
      rw [List.filter_eq_self]
      intro a ha
      rw [appliesOk_eq cfg a false (hall a ha)]
      rfl
    rw [transformRule, hpart, hfilt1, hfilt2]
    rfl
  · -- (ii) no filters supplied at all
    intro insts
    have hcfg : (mkAssumptionPreprocessor none).1 =
        { filters := [], filtersConvertNothing := false } := rfl
    rw [hcfg]
    set cfg : APConfig := { filters := [], filtersConvertNothing := false } with hc
    have hall : ∀ h ∈ insts.dedup, anyFiltersApply cfg h = .ok true :=
      fun h _ => anyFiltersApply_no_filters cfg h rfl rfl
    have hpart := partitionInstances_eq cfg insts.dedup
      (fun h hh => ⟨true, hall h hh⟩)
    have hfilt1 : insts.dedup.filter (appliesOk cfg) = insts.dedup := by
      rw [List.filter_eq_self]
      intro a ha
      rw [appliesOk_eq cfg a true (hall a ha)]
    have hfilt2 : insts.dedup.filter (fun h => !appliesOk cfg h) = [] := by
      rw [List.filter_eq_nil_iff]
      intro a ha
      rw [appliesOk_eq cfg a true (hall a ha)]
      exact fun h => Bool.noConfusion h
    rw [transformRule, hpart, hfilt1, hfilt2]
    cases hd : insts.dedup with
    | nil => rfl
    | cons x xs =>
      simp only [Except.map, List.length_cons, List.isEmpty_cons]
      rw [if_pos (Nat.succ_pos xs.length), if_neg (by exact fun h => Bool.noConfusion h)]
      rfl
  · -- (iii) nonempty filter list
    intro fs insts outs asms hfs htr h hh
    set cfg := (mkAssumptionPreprocessor (some fs)).1 with hcfgdef
    have hcn : cfg.filtersConvertNothing = false := by
      simp only [hcfgdef, mkAssumptionPreprocessor]
      exact List.isEmpty_eq_false.mpr hfs
    have hne : cfg.filters ≠ [] := by
      simp only [hcfgdef, mkAssumptionPreprocessor]
      intro hc
      exact hfs ((List.dedup_eq_nil _).mp hc)
    rw [transformRule] at htr
    cases hpart : partitionInstances cfg insts.dedup with
    | error e =>
      rw [hpart] at htr
      exact absurd htr (by simp [Except.map])
    | ok part =>
      have hevals := partitionInstances_ok_forall cfg insts.dedup part hpart
      have hparteq := partitionInstances_eq cfg insts.dedup hevals
      rw [hpart] at hparteq
      have hpart1 : part = (insts.dedup.filter (appliesOk cfg),
          insts.dedup.filter (fun h => !appliesOk cfg h)) := by
        injection hparteq
      rw [hpart] at htr
      rw [hpart1] at htr
      have hhd : h ∈ insts.dedup := List.mem_dedup.mpr hh
      obtain ⟨b, hb⟩ := hevals h hhd
      have hiff := anyFiltersApply_some_filter cfg h b hcn hne hb
      have hsplit : (outs = PRule.choiceFact
            (sortAtoms (insts.dedup.filter (appliesOk cfg))) ::
            (sortAtoms (insts.dedup.filter (fun x => !appliesOk cfg x))).map
              (fun a => PRule.fact [a]) ∨
          outs = (sortAtoms (insts.dedup.filter (fun x => !appliesOk cfg x))).map
              (fun a => PRule.fact [a])) ∧
          asms = insts.dedup.filter (appliesOk cfg) := by
        by_cases hlen : (insts.dedup.filter (appliesOk cfg)).length > 0
        · rw [Except.map, if_pos hlen, Except.ok.injEq, Prod.mk.injEq] at htr
          exact ⟨Or.inl htr.1.symm, htr.2.symm⟩
        · have h0 : insts.dedup.filter (appliesOk cfg) = [] :=
            List.eq_nil_of_length_eq_zero (Nat.eq_zero_of_not_pos hlen)
          rw [Except.map, if_neg hlen, Except.ok.injEq, Prod.mk.injEq] at htr
          rw [h0]
          exact ⟨Or.inr htr.1.symm, htr.2.symm⟩
      have hasms : asms = insts.dedup.filter (appliesOk cfg) := hsplit.2
      constructor
      · rw [hasms, List.mem_filter]
        constructor
        · intro hmem
          have hap : appliesOk cfg h = true := hmem.2
          rw [appliesOk_eq cfg h b hb] at hap
          exact hiff.mp hap
        · intro hex
          refine ⟨hhd, ?_⟩
          rw [appliesOk_eq cfg h b hb]
          exact hiff.mpr hex
      · intro hnex
        have hbf : b = false := by
          cases b with
          | false => rfl
          | true => exact absurd (hiff.mp rfl) hnex
        subst hbf
        have hret : h ∈ insts.dedup.filter (fun x => !appliesOk cfg x) := by
          rw [List.mem_filter]
          refine ⟨hhd, ?_⟩
          rw [appliesOk_eq cfg h false hb]
          rfl
        have hrets : h ∈ sortAtoms (insts.dedup.filter (fun x => !appliesOk cfg x)) := by
          rw [sortAtoms]
          exact (List.perm_insertionSort _ _).mem_iff.mpr hret
        have hmem : PRule.fact [h] ∈
            (sortAtoms (insts.dedup.filter (fun x => !appliesOk cfg x))).map
              (fun a => PRule.fact [a]) :=
          List.mem_map.mpr ⟨h, hrets, rfl⟩
        rcases hsplit.1 with houts | houts
        · rw [houts]
          exact List.mem_cons_of_mem _ hmem
        · rw [houts]
          exact hmem

/-- Witness for C5, part (iii), at a concrete fact and filter: with the
signature filter `a/1`, the fact instances `a(1)` and `b` are split into the
converted atom `a(1)` (in the choice and the assumption set) and the
retained fact `b`. -/
theorem assumptionPreprocessor_fact_filter_semantics_witness :
    (([PFilter.signature "a" 1] : List PFilter) ≠ []) ∧
    (transformRule (mkAssumptionPreprocessor (some [PFilter.signature "a" 1])).1
        (.fact [Symb.func "a" [Symb.num 1] true, Symb.func "b" [] true]) =
      .ok ([PRule.choiceFact [Symb.func "a" [Symb.num 1] true],
            PRule.fact [Symb.func "b" [] true]],
           [Symb.func "a" [Symb.num 1] true])) ∧
    (Symb.func "a" [Symb.num 1] true ∈
      [Symb.func "a" [Symb.num 1] true, Symb.func "b" [] true]) ∧
    ((Symb.func "a" [Symb.num 1] true ∈ [Symb.func "a" [Symb.num 1] true] ↔
        ∃ f ∈ (mkAssumptionPreprocessor (some [PFilter.signature "a" 1])).1.filters,
          filterApplies f (Symb.func "a" [Symb.num 1] true) = .ok true) ∧
     ((¬ ∃ f ∈ (mkAssumptionPreprocessor (some [PFilter.signature "a" 1])).1.filters,
          filterApplies f (Symb.func "a" [Symb.num 1] true) = .ok true) →
        PRule.fact [Symb.func "a" [Symb.num 1] true] ∈
          [PRule.choiceFact [Symb.func "a" [Symb.num 1] true],
           PRule.fact [Symb.func "b" [] true]])) :=
  ⟨fun hc => List.noConfusion hc, rfl, List.mem_cons_self _ _,
   assumptionPreprocessor_fact_filter_semantics.2.2
     [PFilter.signature "a" 1]
     [Symb.func "a" [Symb.num 1] true, Symb.func "b" [] true]
     [PRule.choiceFact [Symb.func "a" [Symb.num 1] true],
      PRule.fact [Symb.func "b" [] true]]
     [Symb.func "a" [Symb.num 1] true]
     (fun hc => List.noConfusion hc) rfl
     (Symb.func "a" [Symb.num 1] true) (List.mem_cons_self _ _)⟩

/-- Every atom in the retained side of a successful partition has a
negative `_any_filters_apply` verdict. -/
theorem partitionInstances_retained_eval (cfg : APConfig) (insts : List Symb)
    (part : List Symb × List Symb) (hpart : partitionInstances cfg insts = .ok part) :
    ∀ h ∈ part.2, anyFiltersApply cfg h = .ok false := by
  intro h hh
  have hevals := partitionInstances_ok_forall cfg insts part hpart
  have heq := partitionInstances_eq cfg insts hevals
  rw [hpart, Except.ok.injEq] at heq
  rw [heq] at hh
  have hmem := List.mem_filter.mp hh
  obtain ⟨b, hb⟩ := hevals h hmem.1
  have hap := appliesOk_eq cfg h b hb
  cases b with
  | false => exact hb
  | true =>
    rw [hap] at hmem
    exact absurd hmem.2 (by simp)

/-- The retained verdicts survive the sorting of the retained atoms. -/
theorem partitionInstances_retained_sorted (cfg : APConfig) (insts : List Symb)
    (part : List Symb × List Symb) (hpart : partitionInstances cfg insts = .ok part) :
    ∀ h ∈ sortAtoms part.2, anyFiltersApply cfg h = .ok false :=
  fun h hh => partitionInstances_retained_eval cfg insts part hpart h
    ((List.perm_insertionSort _ _).mem_iff.mp hh)

/-- A singleton fact whose atom no filter matches is left unchanged by
`_transform_rule` and adds no assumption. -/
theorem transformRule_retained_singleton (cfg : APConfig) (a : Symb)
    (heval : anyFiltersApply cfg a = .ok false) :
    transformRule cfg (.fact [a]) = .ok ([.fact [a]], []) := by
  have hd : ([a] : List Symb).dedup = [a] := by simp
  have hpart : partitionInstances cfg [a] = .ok ([], [a]) := by
    simp only [partitionInstances, heval]
    rfl
  rw [transformRule, hd, hpart]
  simp [sortAtoms, List.insertionSort, List.orderedInsert, Except.map]

/-- A list of statements each of which `_transform_rule` maps to itself
with no assumptions is a fixed point of `process`. -/
theorem processRules_fixed_of_all (cfg : APConfig) :
    ∀ outs : List PRule, (∀ r ∈ outs, transformRule cfg r = .ok ([r], [])) →
      processRules cfg outs = .ok (outs, []) := by
  intro outs
  induction outs with
  | nil =>
    intro _
    rfl
  | cons r rs ih =>
    intro hall
    have h1 := hall r (List.mem_cons_self r rs)
    have h2 := ih (fun r2 hr2 => hall r2 (List.mem_cons_of_mem r hr2))
    simp only [processRules, h1, h2]
    rfl

/-- Every statement emitted by `_transform_rule` is itself a fixed point of
the transformation: choice rules and other statements pass through, and
retained facts fail the same filters again. -/
theorem transformRule_outputs_fixed (cfg : APConfig) (r : PRule) (outs : List PRule)
    (asms : List Symb) (htr : transformRule cfg r = .ok (outs, asms)) :
    processRules cfg outs = .ok (outs, []) := by
  apply processRules_fixed_of_all
  intro r2 hr2
  cases r with
  | choiceFact atoms =>
    rw [transformRule, Except.ok.injEq, Prod.mk.injEq] at htr
    rw [← htr.1] at hr2
    rcases List.mem_singleton.mp hr2 with rfl
    rfl
  | other idx =>
    rw [transformRule, Except.ok.injEq, Prod.mk.injEq] at htr
    rw [← htr.1] at hr2
    rcases List.mem_singleton.mp hr2 with rfl
    rfl
  | fact insts =>
    rw [transformRule] at htr
    cases hpart : partitionInstances cfg insts.dedup with
    | error e =>
      rw [hpart] at htr
      exact Except.noConfusion htr
    | ok part =>
      rw [hpart] at htr
      have hret := partitionInstances_retained_sorted cfg insts.dedup part hpart
      by_cases hlen : part.1.length > 0
      · rw [Except.map, if_pos hlen, Except.ok.injEq, Prod.mk.injEq] at htr
        rw [← htr.1] at hr2
        rcases List.mem_cons.mp hr2 with rfl | htail
        · rfl
        · obtain ⟨a, ha, rfl⟩ := List.mem_map.mp htail
          exact transformRule_retained_singleton cfg a (hret a ha)
      · rw [Except.map, if_neg hlen, Except.ok.injEq, Prod.mk.injEq] at htr
        rw [← htr.1] at hr2
        obtain ⟨a, ha, rfl⟩ := List.mem_map.mp hr2
        exact transformRule_retained_singleton cfg a (hret a ha)

/-- `process` distributes over concatenation of statement lists. -/
theorem processRules_append (cfg : APConfig) :
    ∀ (xs ys : List PRule) (xs2 ys2 : List PRule) (ax ay : List Symb),
      processRules cfg xs = .ok (xs2, ax) → processRules cfg ys = .ok (ys2, ay) →
      processRules cfg (xs ++ ys) = .ok (xs2 ++ ys2, ax ++ ay) := by
  intro xs
  induction xs with
  | nil =>
    intro ys xs2 ys2 ax ay hx hy
    rw [processRules, Except.ok.injEq, Prod.mk.injEq] at hx
    rw [← hx.1, ← hx.2]
    simpa using hy
  | cons r rs ih =>
    intro ys xs2 ys2 ax ay hx hy
    rw [processRules] at hx
    cases htr : transformRule cfg r with
    | error e =>
      rw [htr] at hx
      exact Except.noConfusion hx
    | ok head =>
      rw [htr] at hx
      cases hrs : processRules cfg rs with
      | error e =>
        rw [hrs] at hx
        exact Except.noConfusion hx
      | ok rest =>
        rw [hrs, Except.ok.injEq, Prod.mk.injEq] at hx
        have hih := ih ys rest.1 ys2 rest.2 ay hrs hy
        show processRules cfg (r :: (rs ++ ys)) = _
        rw [processRules, htr, hih]
        rw [← hx.1, ← hx.2]
        simp

/-- C7, general form: `process` is idempotent at the level of parsed
statements, for any preprocessor configuration: reprocessing the output of
`process` with the same configuration reproduces it exactly and adds no
assumption. -/
theorem processRules_idem_cfg (cfg : APConfig) :
    ∀ (P P2 : List PRule) (A1 : List Symb),
      processRules cfg P = .ok (P2, A1) → processRules cfg P2 = .ok (P2, []) := by
  intro P
  induction P with
  | nil =>
    intro P2 A1 hp
    rw [processRules, Except.ok.injEq, Prod.mk.injEq] at hp
    rw [← hp.1]
    rfl
  | cons r rs ih =>
    intro P2 A1 hp
    rw [processRules] at hp
    cases htr : transformRule cfg r with
    | error e =>
      rw [htr] at hp
      exact Except.noConfusion hp
    | ok head =>
      rw [htr] at hp
      cases hrs : processRules cfg rs with
      | error e =>
        rw [hrs] at hp
        exact Except.noConfusion hp
      | ok rest =>
        rw [hrs, Except.ok.injEq, Prod.mk.injEq] at hp
        have h1 : processRules cfg head.1 = .ok (head.1, []) :=
          transformRule_outputs_fixed cfg r head.1 head.2 htr
        have h2 : processRules cfg rest.1 = .ok (rest.1, []) := ih rest.1 rest.2 hrs
        have happ := processRules_append cfg head.1 rest.1 head.1 rest.1 [] [] h1 h2
        rw [← hp.1]
        simpa using happ

/-- C7.  The assumption rewrite is idempotent on already-transformed
programs: for every program (as a list of parsed statements) and every
filter argument, processing the output of `process` on a fresh preprocessor
constructed with the same filters yields the same program, and in
particular choice-rule facts produced by the first pass are left
untouched.  The second pass also records no assumptions. -/
theorem assumptionPreprocessor_process_idempotent
    (filters : Option (List PFilter)) (P P2 : List PRule) (A1 : List Symb)
    (hp : processRules (mkAssumptionPreprocessor filters).1 P = .ok (P2, A1)) :
    processRules (mkAssumptionPreprocessor filters).1 P2 = .ok (P2, []) :=
  processRules_idem_cfg (mkAssumptionPreprocessor filters).1 P P2 A1 hp

/-- Witness for C7: a concrete program with a pooled fact, a filtered fact
and an opaque statement; the first pass converts `a(1)` to a choice and the
second pass reproduces the output exactly. -/
theorem assumptionPreprocessor_process_idempotent_witness :
    (processRules (mkAssumptionPreprocessor (some [PFilter.signature "a" 1])).1
        [.fact [Symb.func "a" [Symb.num 1] true, Symb.func "b" [] true], .other 5] =
      .ok ([PRule.choiceFact [Symb.func "a" [Symb.num 1] true],
            PRule.fact [Symb.func "b" [] true], PRule.other 5],
           [Symb.func "a" [Symb.num 1] true])) ∧
    (processRules (mkAssumptionPreprocessor (some [PFilter.signature "a" 1])).1
        [PRule.choiceFact [Symb.func "a" [Symb.num 1] true],
         PRule.fact [Symb.func "b" [] true], PRule.other 5] =
      .ok ([PRule.choiceFact [Symb.func "a" [Symb.num 1] true],
            PRule.fact [Symb.func "b" [] true], PRule.other 5], [])) :=
  ⟨rfl,
   assumptionPreprocessor_process_idempotent (some [PFilter.signature "a" 1])
     [.fact [Symb.func "a" [Symb.num 1] true, Symb.func "b" [] true], .other 5]
     [PRule.choiceFact [Symb.func "a" [Symb.num 1] true],
      PRule.fact [Symb.func "b" [] true], PRule.other 5]
     [Symb.func "a" [Symb.num 1] true] rfl⟩

end Clingexplaid
